import Mathlib

set_option maxRecDepth 200000
set_option maxHeartbeats 1000000

/-!
# Verification of the `rag-rs` indexing crate

This file gives a shallow embedding, in Lean 4, of the data model and the
algorithms of the `rag-indexing` crate of the `rag-rs` repository:

* `tiktoken.rs` — the tokenizer service (`count_tokens`, `normalize_model_name`);
* `tree_structrue/mod.rs` — the node/tree data model (`Node`, `NodeTree`,
  `NodeTree::add_node`);
* `tree_structrue/markdown_bulid.rs` — the markdown tree builder
  (`MarkdownParser::parse`);
* `recursive_splitting.rs` — the recursive token chunker (`RecursiveChunker`);
* `faq.rs` — the FAQ chunker (`FAQChunker`).

External dependencies of the crate (the `tiktoken_rs` BPE encoders, the
`jieba_rs` word segmenter, the `pulldown_cmark` markdown event parser and the
`uuid` fresh-id generator) are modelled as explicit parameters or freely chosen
inputs of the embedded functions; everything else is translated directly from
the Rust source.  Rust `String::len` (a UTF-8 byte count) is embedded as
`String.utf8ByteSize`, `str::chars` as `String.data`, and `HashMap` as a
function into `Option`.  Code that can panic (slice indexing out of bounds) is
embedded with `Option`, `none` marking the panic.
-/

namespace RagRs

/-! ## Rust string primitives

The Rust string operations used by the crate, implemented over the character
list `String.data` so that every definition evaluates by kernel reduction.
`str::trim` trims Unicode whitespace; `Char.isWhitespace` matches it on the
ASCII whitespace that occurs in practice.  `str::to_lowercase` agrees with
`Char.toLower` on ASCII. -/

/-- `str::trim` on a character list: drop whitespace from both ends. -/
def trimChars (l : List Char) : List Char :=
  ((l.dropWhile Char.isWhitespace).reverse.dropWhile Char.isWhitespace).reverse

/-- `str::trim`. -/
def trimStr (s : String) : String := ⟨trimChars s.data⟩

/-- `str::trim_end`. -/
def trimRightStr (s : String) : String :=
  ⟨(s.data.reverse.dropWhile Char.isWhitespace).reverse⟩

/-- `str::to_lowercase`. -/
def lowerStr (s : String) : String := ⟨s.data.map Char.toLower⟩

/-- `s.any(p)` on the characters of `s`. -/
def strAny (s : String) (p : Char → Bool) : Bool := s.data.any p

/-- Split at every character satisfying `p`, keeping empty pieces — the
behaviour of Rust `str::split` with a `char` (or char-list) pattern. -/
def splitByAux (p : Char → Bool) : List Char → List Char → List String
  | [], acc => [⟨acc.reverse⟩]
  | c :: rest, acc =>
    if p c then (⟨acc.reverse⟩ : String) :: splitByAux p rest []
    else splitByAux p rest (c :: acc)

/-- Rust `str::split` with a character predicate. -/
def splitBy (p : Char → Bool) (s : String) : List String :=
  splitByAux p s.data []

/-- Rust `text.split("\n\n")`: split at non-overlapping leftmost occurrences
of the two-newline separator, keeping empty pieces. -/
def splitOnNNAux : List Char → List Char → List String
  | '\n' :: '\n' :: rest, acc => (⟨acc.reverse⟩ : String) :: splitOnNNAux rest []
  | c :: rest, acc => splitOnNNAux rest (c :: acc)
  | [], acc => [⟨acc.reverse⟩]

/-- Rust `text.split("\n\n")`. -/
def splitOnNN (s : String) : List String := splitOnNNAux s.data []

/-- Rust `path.split("/")` (a one-character pattern). -/
def splitSlash (s : String) : List String := splitBy (· = '/') s

/-- Rust `s.replace(" ", "-")` (one-character pattern and replacement). -/
def replaceSpaceDash (s : String) : String :=
  ⟨s.data.map fun c => if c = ' ' then '-' else c⟩

/-! ## Tokenizer service (`src/crates/rag-indexing/src/tiktoken.rs`) -/

/-- `normalize_model_name` from `tiktoken.rs`: canonicalize a model-name alias.
Matches on `model.trim().to_lowercase()`; the default arm returns the original
string unchanged. -/
def normalizeModelName (model : String) : String :=
  let k := lowerStr (trimStr model)
  if k = "gpt-4" ∨ k = "gpt-4-turbo" ∨ k = "gpt-4o" ∨ k = "gpt-4o-mini" then "gpt-4o"
  else if k = "gpt-3.5" ∨ k = "gpt-3.5-turbo" ∨ k = "chatgpt" then "gpt-3.5-turbo"
  else if k = "text-embedding-3-small" ∨ k = "embedding-small" then "text-embedding-3-small"
  else if k = "text-embedding-3-large" ∨ k = "embedding-large" then "text-embedding-3-large"
  else if k = "text-embedding-ada-002" ∨ k = "ada" then "text-embedding-ada-002"
  else model

/-- The canonical encoder keys produced by the non-default arms of
`normalize_model_name`. -/
def canonicalEncoderKeys : List String :=
  ["gpt-4o", "gpt-3.5-turbo", "text-embedding-3-small",
   "text-embedding-3-large", "text-embedding-ada-002"]

/-- `count_tokens` from `tiktoken.rs`.  The external `tiktoken_rs` encoder
family (`get_bpe_from_model` followed by `encode_with_special_tokens(..).len()`)
is modelled by the parameter `enc : String → String → Nat` mapping the encoder
key and the text to a token count; the `BPE_CACHE` is semantically transparent
(same key, same encoder). -/
def countTokens (enc : String → String → Nat) (text model : String) : Nat :=
  enc (normalizeModelName model) text

/-! ## Tree data model (`src/crates/rag-indexing/src/tree_structrue/mod.rs`)

`NodeId = Uuid` is embedded as `Nat`; `Uuid::new_v4()` is modelled as an
explicitly supplied fresh id (freshness is an axiom of v4 uuid generation and
appears as a hypothesis where it matters).  The
`HashMap<NodeRelationship, Vec<NodeId>>` of a node is embedded as a record
with one list per relationship key; an absent key and an empty vector are
observationally identical in the source (`children` uses `unwrap_or(&[])`,
`parent_id`/`prev_id`/`next_id` use `and_then(first)`, and
`set_previous(None)`/`set_next(None)` remove the key). -/

abbrev NodeId := Nat

/-- `NodeType` from `mod.rs`. -/
inductive NodeType where
  | root
  | intermediate
  | leaf
deriving Repr, DecidableEq

/-- The relationship map of a node (`HashMap<NodeRelationship, Vec<NodeId>>`). -/
structure Relationships where
  parent : List NodeId := []
  child : List NodeId := []
  previous : List NodeId := []
  next : List NodeId := []
  root : List NodeId := []
  source : List NodeId := []
deriving Repr, DecidableEq

/-- `NodeMetadata` from `mod.rs`. -/
structure NodeMetadata where
  document_id : String
  hierarchy : List String
  node_type : NodeType
  chunk_size : Option Nat
  file_name : Option String
  image_alt : Option String
  image_path : Option String
  image_id : Option String
deriving Repr, DecidableEq

/-- `RootNode` from `mod.rs` (the `embedding: Option<Vec<f32>>` field of leaves
is dropped: floating point numbers play no role in any claim and the field is
never read by the embedded operations except `set_leaf_embedding`). -/
structure RootNode where
  id : NodeId
  document_id : String
  relationships : Relationships
  metadata : NodeMetadata
deriving Repr, DecidableEq

/-- `IntermediateNode` from `mod.rs`. -/
structure IntermediateNode where
  id : NodeId
  title : Option String
  relationships : Relationships
  metadata : NodeMetadata
deriving Repr, DecidableEq

/-- `LeafNode` from `mod.rs`, without the `embedding` field (see `RootNode`). -/
structure LeafNode where
  id : NodeId
  text : String
  relationships : Relationships
  metadata : NodeMetadata
deriving Repr, DecidableEq

/-- `Node` from `mod.rs`. -/
inductive Node where
  | root (n : RootNode)
  | intermediate (n : IntermediateNode)
  | leaf (n : LeafNode)
deriving Repr, DecidableEq

namespace Node

/-- `Node::id`. -/
def id : Node → NodeId
  | .root n => n.id
  | .intermediate n => n.id
  | .leaf n => n.id

/-- `Node::title`. -/
def title : Node → Option String
  | .intermediate n => n.title
  | _ => none

/-- `Node::as_leaf`. -/
def asLeaf : Node → Option LeafNode
  | .leaf n => some n
  | _ => none

/-- `Node::relationships`. -/
def relationships : Node → Relationships
  | .root n => n.relationships
  | .intermediate n => n.relationships
  | .leaf n => n.relationships

/-- Apply a function to the relationship map (the shape of every
`relationships_mut()` use in the source). -/
def mapRelationships (f : Relationships → Relationships) : Node → Node
  | .root n => .root { n with relationships := f n.relationships }
  | .intermediate n => .intermediate { n with relationships := f n.relationships }
  | .leaf n => .leaf { n with relationships := f n.relationships }

/-- `Node::metadata`. -/
def metadata : Node → NodeMetadata
  | .root n => n.metadata
  | .intermediate n => n.metadata
  | .leaf n => n.metadata

/-- `Node::parent_id`. -/
def parentId (n : Node) : Option NodeId := n.relationships.parent.head?

/-- `Node::children`. -/
def children (n : Node) : List NodeId := n.relationships.child

/-- `Node::prev_id`. -/
def prevId (n : Node) : Option NodeId := n.relationships.previous.head?

/-- `Node::next_id`. -/
def nextId (n : Node) : Option NodeId := n.relationships.next.head?

/-- `children_mut().push(c)` from `add_node`. -/
def pushChild (c : NodeId) (n : Node) : Node :=
  n.mapRelationships fun r => { r with child := r.child ++ [c] }

/-- `Node::set_previous`. -/
def setPrevious (o : Option NodeId) (n : Node) : Node :=
  n.mapRelationships fun r => { r with previous := o.toList }

/-- `Node::set_next`. -/
def setNext (o : Option NodeId) (n : Node) : Node :=
  n.mapRelationships fun r => { r with next := o.toList }

/-- `Node::is_leaf`. -/
def isLeaf : Node → Bool
  | .leaf _ => true
  | _ => false

/-- `Node::new_root` (the fresh uuid is the explicit argument `id`). -/
def newRoot (id : NodeId) (documentId : String) (fileName : Option String) : Node :=
  .root {
    id := id
    document_id := documentId
    relationships := { root := [id] }
    metadata := {
      document_id := documentId
      hierarchy := ["Root"]
      node_type := .root
      chunk_size := none
      file_name := fileName
      image_alt := none
      image_path := none
      image_id := none } }

/-- `Node::new_intermediate` (the fresh uuid is the explicit argument `id`). -/
def newIntermediate (id : NodeId) (parentId : NodeId) (title : Option String)
    (hierarchy : List String) (documentId : String) : Node :=
  .intermediate {
    id := id
    title := title
    relationships := { parent := [parentId] }
    metadata := {
      document_id := documentId
      hierarchy := hierarchy
      node_type := .intermediate
      chunk_size := none
      file_name := none
      image_alt := none
      image_path := none
      image_id := none } }

/-- `Node::new_leaf` (the fresh uuid is the explicit argument `id`).  Note that
it appends the synthetic label `chunk_<index>_<size>` to the hierarchy it is
given. -/
def newLeaf (id : NodeId) (parentId : NodeId) (text : String)
    (chunkSize chunkIndex : Nat) (hierarchy : List String) (documentId : String)
    (imageAlt imagePath imageId fileName : Option String) : Node :=
  .leaf {
    id := id
    text := text
    relationships := { parent := [parentId] }
    metadata := {
      document_id := documentId
      hierarchy := hierarchy ++ [s!"chunk_{chunkIndex}_{chunkSize}"]
      node_type := .leaf
      chunk_size := some chunkSize
      file_name := fileName
      image_alt := imageAlt
      image_path := imagePath
      image_id := imageId } }

end Node

/-- `NodeTree` from `mod.rs`; the `HashMap<NodeId, Node>` is embedded as a
function into `Option`. -/
structure NodeTree where
  nodes : NodeId → Option Node
  root : NodeId

namespace NodeTree

/-- `HashMap::insert` (replace or add). -/
def mapInsert (m : NodeId → Option Node) (k : NodeId) (v : Node) :
    NodeId → Option Node :=
  fun x => if x = k then some v else m x

/-- In-place mutation through `get_mut` guarded by `if let Some(..)`: apply `f`
at key `k` when present, otherwise do nothing. -/
def mapAdjust (m : NodeId → Option Node) (k : NodeId) (f : Node → Node) :
    NodeId → Option Node :=
  fun x => if x = k then (m k).map f else m x

/-- `NodeTree::new`. -/
def new (root : Node) : NodeTree :=
  { nodes := mapInsert (fun _ => none) root.id root, root := root.id }

/-- `NodeTree::add_node`, embedded state-passing: the returned tree is the
state of `self` when the method returns, and the `Except` component is the
`Result`.  Both error returns happen before any mutation, exactly as in the
source, and the mutations then happen in source order: push the child id onto
the parent's child list, link `prev`/`next` with the previous last child
(`children().iter().rev().nth(1)`), and insert the child node. -/
def addNodeS (t : NodeTree) (childNode : Node) : NodeTree × Except String Unit :=
  match childNode.parentId with
  | none => (t, .error "Node must have a parent")
  | some parentId =>
    match t.nodes parentId with
    | none => (t, .error "Parent node not found")
    | some parent =>
      let parent := parent.pushChild childNode.id
      let nodes := mapInsert t.nodes parentId parent
      match parent.children.reverse.get? 1 with
      | some lastChildId =>
        let nodes := mapAdjust nodes lastChildId (Node.setNext (some childNode.id))
        let childNode := childNode.setPrevious (some lastChildId)
        ({ t with nodes := mapInsert nodes childNode.id childNode }, .ok ())
      | none =>
        ({ t with nodes := mapInsert nodes childNode.id childNode }, .ok ())

/-- `add_node` as a partial function: `some` on `Ok`, `none` on `Err`. -/
def addNode (t : NodeTree) (childNode : Node) : Option NodeTree :=
  match addNodeS t childNode with
  | (t', .ok ()) => some t'
  | (_, .error _) => none

end NodeTree

/-! ## Markdown tree builder
(`src/crates/rag-indexing/src/tree_structrue/markdown_bulid.rs`)

`MarkdownParser::parse` feeds the event stream of the external `pulldown_cmark`
parser through a state machine that builds a `NodeTree`.  The external parser
is modelled by taking the event stream itself as input: the embedding covers
every event shape the source matches on (all others fall into its `_ => {}`
arms and are represented by `.otherStart` / `.otherEnd` / `.other`).
`HeadingLevel` casts to `1..=6` via `as usize`.  The fresh uuids are modelled
by a counter threaded through the state. -/

/-- The `pulldown_cmark::Tag`/`TagEnd`/`Event` shapes matched by
`MarkdownParser::parse`. -/
inductive MdEvent where
  | startHeading (level : Nat)
  | startCodeBlock
  | startTable
  | startImage (destUrl : String) (title : String)
  | otherStart
  | endHeading
  | endParagraph
  | endCodeBlock
  | endTableHead
  | endTableRow
  | endTable
  | endImage
  | otherEnd
  | text (s : String)
  | code (s : String)
  | softBreak
  | hardBreak
  | other
deriving Repr, DecidableEq

/-- The local mutable state of `MarkdownParser::parse`.  `headingStack` keeps
the `Vec` order (bottom of the stack first, top last).  `pendingHeading` keeps
the `level` and accumulated `text` (its `_parent_id`/`_parent_hierarchy` fields
are never read by the source).  `nextId` is the fresh-uuid supply. -/
structure MdState where
  tree : NodeTree
  headingStack : List (NodeId × List String)
  currentParentId : NodeId
  currentHierarchy : List String
  inCodeBlock : Bool
  inTable : Bool
  inImage : Bool
  tableHeader : Option (List String)
  tableBuffer : List (List String)
  currentRow : List String
  codeBuffer : String
  paragraphBuffer : String
  imageAlt : String
  imagePath : String
  pendingHeading : Option (Nat × String)
  chunkIndex : Nat
  nextId : Nat

/-- `MarkdownParser` (the struct fields `document_id` and `file_name`). -/
structure MarkdownParser where
  document_id : String
  file_name : Option String

namespace MarkdownParser

/-- The initial state of the `parse` loop (root node, stack seeded with
`(root_id, ["Root"])`). -/
def initState (p : MarkdownParser) : MdState :=
  let root := Node.newRoot 0 p.document_id p.file_name
  { tree := NodeTree.new root
    headingStack := [(0, ["Root"])]
    currentParentId := 0
    currentHierarchy := ["Root"]
    inCodeBlock := false
    inTable := false
    inImage := false
    tableHeader := none
    tableBuffer := []
    currentRow := []
    codeBuffer := ""
    paragraphBuffer := ""
    imageAlt := ""
    imagePath := ""
    pendingHeading := none
    chunkIndex := 0
    nextId := 1 }

/-- `while heading_stack.len() > level { heading_stack.pop(); }` — pop the
stack (a `Vec`, top at the end) down to `level` entries. -/
def popStack (stack : List (NodeId × List String)) (level : Nat) :
    List (NodeId × List String) :=
  stack.take level

/-- `heading_stack.last().cloned().unwrap_or((root_id, vec!["Root"]))`. -/
def stackTop (s : MdState) : NodeId × List String :=
  s.headingStack.getLast?.getD (s.tree.root, ["Root"])

/-- One rendered table line, `format!("| {} |\n", cells)`. -/
def renderTableLine (cells : String) : String :=
  "| " ++ cells ++ " |\n"

/-- The table markdown re-rendered at `TagEnd::Table`:
a header line, an `--- |`-separator line, then the body rows. -/
def renderTable (header : Option (List String)) (rows : List (List String)) :
    String :=
  let head := match header with
    | some h =>
        renderTableLine (String.intercalate " | " h) ++
        renderTableLine (trimRightStr (String.join (List.replicate h.length "--- | ")))
    | none => ""
  head ++ String.join (rows.map fun r => renderTableLine (String.intercalate " | " r))

/-- One iteration of the `for event in parser` loop.  `add_node` errors
propagate through `Except` exactly like the `?` operator in the source. -/
def step (p : MarkdownParser) (s : MdState) (ev : MdEvent) :
    Except String MdState :=
  match ev with
  | .startHeading level =>
    let stack := popStack s.headingStack level
    -- the popped stack's top is read only into the unused `_parent_*` fields
    .ok { s with headingStack := stack, pendingHeading := some (level, "") }
  | .startCodeBlock =>
    .ok { s with inCodeBlock := true, codeBuffer := "" }
  | .startTable =>
    .ok { s with inTable := true, tableHeader := none, tableBuffer := [],
                 currentRow := [] }
  | .startImage destUrl title =>
    .ok { s with inImage := true, imageAlt := title, imagePath := destUrl }
  | .otherStart => .ok s
  | .endHeading =>
    match s.pendingHeading with
    | none => .ok s
    | some (level, htext) =>
      let s := { s with pendingHeading := none }
      let title := trimStr htext
      if title = "" then .ok s
      else
        let stack := popStack s.headingStack level
        let s := { s with headingStack := stack }
        let (parentId, parentHier) := stackTop s
        let newHier := parentHier ++ [title]
        let intermediate :=
          Node.newIntermediate s.nextId parentId (some title) newHier
            p.document_id
        match (s.tree.addNodeS intermediate).2 with
        | .error e => .error e
        | .ok () =>
          .ok { s with
                tree := (s.tree.addNodeS intermediate).1
                nextId := s.nextId + 1
                headingStack := s.headingStack ++ [(intermediate.id, newHier)]
                currentParentId := intermediate.id
                currentHierarchy := newHier }
  | .endParagraph =>
    if trimStr s.paragraphBuffer ≠ "" then
      let text := trimStr s.paragraphBuffer
      let leaf := Node.newLeaf s.nextId s.currentParentId text
        text.utf8ByteSize s.chunkIndex s.currentHierarchy p.document_id
        none none none p.file_name
      match (s.tree.addNodeS leaf).2 with
      | .error e => .error e
      | .ok () =>
        .ok { s with tree := (s.tree.addNodeS leaf).1, nextId := s.nextId + 1,
                     chunkIndex := s.chunkIndex + 1, paragraphBuffer := "" }
    else .ok { s with paragraphBuffer := "" }
  | .endCodeBlock =>
    if s.inCodeBlock then
      let text := trimRightStr s.codeBuffer
      if text ≠ "" then
        let leaf := Node.newLeaf s.nextId s.currentParentId text
          text.utf8ByteSize s.chunkIndex s.currentHierarchy p.document_id
          none none none p.file_name
        match (s.tree.addNodeS leaf).2 with
        | .error e => .error e
        | .ok () =>
          .ok { s with tree := (s.tree.addNodeS leaf).1,
                       nextId := s.nextId + 1, chunkIndex := s.chunkIndex + 1,
                       inCodeBlock := false, codeBuffer := "" }
      else .ok { s with inCodeBlock := false, codeBuffer := "" }
    else .ok s
  | .endTableHead =>
    if s.inTable then
      .ok { s with tableHeader := some s.currentRow, currentRow := [] }
    else .ok s
  | .endTableRow =>
    if s.inTable ∧ s.tableHeader.isSome then
      .ok { s with tableBuffer := s.tableBuffer ++ [s.currentRow],
                   currentRow := [] }
    else .ok s
  | .endTable =>
    if s.inTable then
      let markdown := renderTable s.tableHeader s.tableBuffer
      if trimStr markdown ≠ "" then
        let tableHier := s.currentHierarchy ++ [s!"table_{s.chunkIndex}"]
        let leaf := Node.newLeaf s.nextId s.currentParentId markdown
          markdown.utf8ByteSize s.chunkIndex tableHier p.document_id
          none none none p.file_name
        match (s.tree.addNodeS leaf).2 with
        | .error e => .error e
        | .ok () =>
          .ok { s with tree := (s.tree.addNodeS leaf).1,
                       nextId := s.nextId + 1, chunkIndex := s.chunkIndex + 1,
                       tableHeader := none, tableBuffer := [], inTable := false }
      else .ok { s with tableHeader := none, tableBuffer := [],
                        inTable := false }
    else .ok s
  | .endImage =>
    if s.inImage then
      let markdown := s!"![{s.imageAlt}]({s.imagePath})"
      let imgHier := s.currentHierarchy ++ [s!"img_{s.chunkIndex}"]
      let imageId := ((splitSlash s.imagePath).getLast?.getD "")
      let leaf := Node.newLeaf s.nextId s.currentParentId markdown
        markdown.utf8ByteSize s.chunkIndex imgHier p.document_id
        (if s.imageAlt = "" then none else some s.imageAlt)
        (some s.imagePath) (some imageId) p.file_name
      match (s.tree.addNodeS leaf).2 with
      | .error e => .error e
      | .ok () =>
        .ok { s with tree := (s.tree.addNodeS leaf).1, nextId := s.nextId + 1,
                     chunkIndex := s.chunkIndex + 1, inImage := false,
                     imageAlt := "", imagePath := "", paragraphBuffer := "" }
    else .ok s
  | .otherEnd => .ok s
  | .text t =>
    match s.pendingHeading with
    | some (level, htext) =>
      .ok { s with pendingHeading := some (level, htext ++ t) }
    | none =>
      if s.inCodeBlock then
        .ok { s with codeBuffer := s.codeBuffer ++ t ++ "\n" }
      else if s.inTable then
        .ok { s with currentRow := s.currentRow ++ [t] }
      else if s.inImage then
        .ok { s with imageAlt := s.imageAlt ++ t }
      else if trimStr t ≠ "" then
        .ok { s with paragraphBuffer := s.paragraphBuffer ++ t ++ " " }
      else .ok s
  | .code t =>
    if s.pendingHeading.isNone ∧ ¬ s.inCodeBlock then
      .ok { s with paragraphBuffer := s.paragraphBuffer ++ s!"`{t}` " }
    else .ok s
  | .softBreak | .hardBreak =>
    if s.paragraphBuffer ≠ "" ∧ s.pendingHeading.isNone ∧ ¬ s.inTable then
      .ok { s with paragraphBuffer := s.paragraphBuffer ++ " " }
    else .ok s
  | .other => .ok s

/-- The flush of a trailing unterminated paragraph after the event loop. -/
def flush (p : MarkdownParser) (s : MdState) : Except String NodeTree :=
  if trimStr s.paragraphBuffer ≠ "" then
    let text := trimStr s.paragraphBuffer
    let leaf := Node.newLeaf s.nextId s.currentParentId text
      text.utf8ByteSize s.chunkIndex s.currentHierarchy p.document_id
      none none none p.file_name
    match (s.tree.addNodeS leaf).2 with
    | .error e => .error e
    | .ok () => .ok (s.tree.addNodeS leaf).1
  else .ok s.tree

/-- The event loop of `MarkdownParser::parse` over an explicit event list. -/
def runEvents (p : MarkdownParser) (s : MdState) :
    List MdEvent → Except String MdState
  | [] => .ok s
  | ev :: rest =>
    match p.step s ev with
    | .error e => .error e
    | .ok s' => p.runEvents s' rest

/-- `MarkdownParser::parse`, as a function of the `pulldown_cmark` event
stream of the input document. -/
def parse (p : MarkdownParser) (events : List MdEvent) :
    Except String NodeTree :=
  match p.runEvents p.initState events with
  | .error e => .error e
  | .ok s => p.flush s

end MarkdownParser

/-! ## Recursive token chunker (`src/crates/rag-indexing/src/recursive_splitting.rs`)

The external `tiktoken_rs::CoreBPE` encoder held in the `bpe` field is modelled
by the function field `tc : String → Nat`
(`self.bpe.encode_with_special_tokens(text).len()`).  `String::len` is a UTF-8
byte count (`String.utf8ByteSize`); `text.chars()` is `String.data`.  The
out-of-bounds slice panic that `hard_split` can hit is modelled by `Option`
(`none` = panic), and propagates through callers. -/

/-- `TextChunk` from `recursive_splitting.rs`.  Its
`metadata: HashMap<String, String>` always holds exactly the entries
`"model"` and `"token_count"` (see `make_chunk`), embedded as the two fields
`model` and `token_count` (the latter as the number it stringifies). -/
structure TextChunk where
  content : String
  page_number : Nat
  chunk_index : Nat
  char_range : Nat × Nat
  model : String
  token_count : Nat
deriving Repr, DecidableEq

/-- `RecursiveChunker`: `max_tokens`, the configured `model` string, and the
encoder `tc` standing for the `bpe` field. -/
structure RecursiveChunker where
  max_tokens : Nat
  model : String
  tc : String → Nat

namespace RecursiveChunker

/-- `RecursiveChunker::normalize_model` (note: unlike
`tiktoken.rs::normalize_model_name`, this one maps the Qwen aliases to
`"gpt-4o"`). -/
def normalizeModel (model : String) : String :=
  let k := lowerStr (trimStr model)
  if k = "gpt-4o" ∨ k = "gpt-4" ∨ k = "gpt-4-turbo" ∨ k = "gpt-4o-mini" then "gpt-4o"
  else if k = "gpt-3.5" ∨ k = "gpt-3.5-turbo" ∨ k = "chatgpt" then "gpt-3.5-turbo"
  else if k = "text-embedding-3-small" ∨ k = "embedding-small" then "text-embedding-3-small"
  else if k = "text-embedding-3-large" ∨ k = "embedding-large" then "text-embedding-3-large"
  else if k = "text-embedding-ada-002" ∨ k = "ada" then "text-embedding-ada-002"
  else if k = "qwen" ∨ k = "qwen-max" ∨ k = "qwen-plus" ∨ k = "qwen-turbo" ∨
          k = "qwen-7b" ∨ k = "qwen-14b" ∨ k = "qwen-72b" then "gpt-4o"
  else model

/-- `token_count`. -/
def tokenCount (rc : RecursiveChunker) (text : String) : Nat := rc.tc text

/-- `make_chunk`. -/
def makeChunk (rc : RecursiveChunker) (content : String) (page offset index : Nat) :
    TextChunk :=
  { content := content
    page_number := page
    chunk_index := index
    char_range := (offset, offset + content.utf8ByteSize)
    model := rc.model
    token_count := rc.tokenCount content }

/-- `split_paragraphs`: split on `"\n\n"`, trim, drop empties. -/
def splitParagraphs (text : String) : List String :=
  ((splitOnNN text).map trimStr).filter (· ≠ "")

/-- The Chinese sentence delimiters of the regex `[。！？\n]+`. -/
def cnDelims : List Char := ['。', '！', '？', '\n']

/-- The English sentence delimiters of the regex `[.!?\n]+`. -/
def enDelims : List Char := ['.', '!', '?', '\n']

/-- One `find_iter` pass of `split_sentences`: the pieces of `text` between
maximal runs of delimiter characters (raw-nonempty pieces only, as the source
skips a piece with `mat.start() > start` and a missing tail), each trimmed.
`String.split` cuts at every delimiter occurrence, so the empty raw pieces it
yields are exactly those between adjacent delimiters or at the ends. -/
def splitPass (delims : List Char) (text : String) : List String :=
  ((splitBy (delims.contains ·) text).filter (· ≠ "")).map trimStr

/-- `split_sentences`: the Chinese pass, falling back to the English pass when
it yields at most one piece (the count taken before the final empty-string
filter, as in the source). -/
def splitSentences (text : String) : List String :=
  let cn := splitPass cnDelims text
  let sentences := if cn.length ≤ 1 then splitPass enDelims text else cn
  sentences.filter (· ≠ "")

/-- `is_good_break`.  `char::is_whitespace` is modelled by
`Char.isWhitespace` (they agree on ASCII; the listed punctuation is matched
exactly). -/
def isGoodBreak (c : Char) : Bool :=
  c.isWhitespace || c ∈ ['，', ',', '；', ';', '：', ':', ' ', '\n']

/-- The backward scan
`while end > i && !is_good_break(chars[end - 1]) { end -= 1; }`, by structural
recursion on `end`. -/
def walkBack (chars : List Char) (i : Nat) : Nat → Nat
  | 0 => 0
  | e + 1 =>
    if i < e + 1 then
      if isGoodBreak (chars.getD e ' ') then e + 1
      else walkBack chars i e
    else e + 1

theorem walkBack_ge (chars : List Char) (i : Nat) :
    ∀ e, i ≤ e → i ≤ walkBack chars i e := by
  intro e
  induction e with
  | zero => intro he; simpa [walkBack] using he
  | succ e ih =>
    intro he
    rw [walkBack]
    split
    · split
      · omega
      · rcases Nat.lt_or_ge i (e + 1) with h | h
        · exact ih (by omega)
        · omega
    · omega

theorem walkBack_le (chars : List Char) (i : Nat) :
    ∀ e, walkBack chars i e ≤ e := by
  intro e
  induction e with
  | zero => simp [walkBack]
  | succ e ih =>
    rw [walkBack]
    split
    · split
      · omega
      · omega
    · omega

/-- The `while i < chars.len()` loop of `hard_split`, over the char vector,
threading `i`, `current_offset` and `chunk_index` and returning the chunks and
the final `chunk_index`.  The recursion is by an explicit `fuel` so that every
result computes by kernel reduction; since each iteration strictly increases
`i` (`end = i + 300 > i` when forced, and otherwise the scan stops only with
`end > i`), the initial fuel `chars.length + 1` of `hardSplit` is never
exhausted.  The forced cut `end = i + 300` is not clamped to `chars.len()` in
the source, so the subsequent `&chars[i..end]` panics when
`end > chars.len()`: that case returns `none`. -/
def hardSplitAux (rc : RecursiveChunker) (page : Nat) (chars : List Char) :
    Nat → Nat → Nat → Nat → Option (List TextChunk × Nat)
  | 0, _, _, _ => none
  | fuel + 1, i, offset, cidx =>
    if i < chars.length then
      let e0 := min (i + 500) chars.length
      let e1 := walkBack chars i e0
      let e2 := if e1 = i then i + 300 else e1
      if e2 > chars.length then none
      else
        let slice : String := ⟨(chars.drop i).take (e2 - i)⟩
        let ch := rc.makeChunk slice page offset cidx
        match hardSplitAux rc page chars fuel e2 (offset + slice.utf8ByteSize + 1)
            (cidx + 1) with
        | none => none
        | some (rest, c') => some (ch :: rest, c')
    else some ([], cidx)

/-- `hard_split`: chunks plus the final value of the `&mut usize` chunk
counter; `none` models the slice panic. -/
def hardSplit (rc : RecursiveChunker) (text : String) (page startOffset cidx : Nat) :
    Option (List TextChunk × Nat) :=
  hardSplitAux rc page text.data (text.data.length + 1) 0 startOffset cidx

/-- The sentence loop of `recursive_split`, threading the buffer, the current
offset and the chunk counter; the final buffer flush happens at the end of the
list.  Returns the chunks and the final chunk counter. -/
def recursiveSplitAux (rc : RecursiveChunker) (page : Nat) :
    List String → String → Nat → Nat → Option (List TextChunk × Nat)
  | [], buffer, off, cidx =>
    if buffer ≠ "" then some ([rc.makeChunk buffer page off cidx], cidx + 1)
    else some ([], cidx)
  | sentence :: rest, buffer, off, cidx =>
    let sent := trimStr sentence
    if sent = "" then recursiveSplitAux rc page rest buffer off cidx
    else
      let newBuffer := if buffer = "" then sent else buffer ++ " " ++ sent
      if rc.tokenCount newBuffer ≤ rc.max_tokens then
        recursiveSplitAux rc page rest newBuffer off cidx
      else
        -- commit the current buffer, if any
        let committed : List TextChunk :=
          if buffer ≠ "" then [rc.makeChunk buffer page off cidx] else []
        let off1 := if buffer ≠ "" then off + buffer.utf8ByteSize + 1 else off
        let cidx1 := if buffer ≠ "" then cidx + 1 else cidx
        if rc.tokenCount sent ≤ rc.max_tokens then
          match recursiveSplitAux rc page rest ""
              (off1 + sent.utf8ByteSize + 1) (cidx1 + 1) with
          | none => none
          | some (cs, c') =>
            some (committed ++ [rc.makeChunk sent page off1 cidx1] ++ cs, c')
        else
          match rc.hardSplit sent page off1 cidx1 with
          | none => none
          | some (hcs, cidxH) =>
            let totalLen := (hcs.map fun c => c.content.utf8ByteSize + 1).sum
            -- the counter is bumped a second time by `hard_chunks.len()`
            match recursiveSplitAux rc page rest "" (off1 + totalLen)
                (cidxH + hcs.length) with
            | none => none
            | some (cs, c') => some (committed ++ hcs ++ cs, c')

/-- `recursive_split`: split the paragraph into sentences and run the loop
with an empty buffer. -/
def recursiveSplit (rc : RecursiveChunker) (text : String) (page startOffset cidx : Nat) :
    Option (List TextChunk × Nat) :=
  recursiveSplitAux rc page (splitSentences text) "" startOffset cidx

/-- The paragraph loop of `chunk`, threading `global_offset` and
`chunk_index`. -/
def chunkParas (rc : RecursiveChunker) (page : Nat) :
    List String → Nat → Nat → Option (List TextChunk × Nat × Nat)
  | [], off, cidx => some ([], off, cidx)
  | para :: rest, off, cidx =>
    if rc.tokenCount para ≤ rc.max_tokens then
      match chunkParas rc page rest (off + para.utf8ByteSize + 1) (cidx + 1) with
      | none => none
      | some (cs, o, i) => some (rc.makeChunk para page off cidx :: cs, o, i)
    else
      match rc.recursiveSplit para page off cidx with
      | none => none
      | some (subs, cidx') =>
        match chunkParas rc page rest (off + para.utf8ByteSize + 1) cidx' with
        | none => none
        | some (cs, o, i) => some (subs ++ cs, o, i)

/-- The page loop of `chunk`. -/
def chunkPages (rc : RecursiveChunker) :
    List (Nat × String) → Nat → Nat → Option (List TextChunk × Nat × Nat)
  | [], off, cidx => some ([], off, cidx)
  | (page, ptext) :: rest, off, cidx =>
    match chunkParas rc page (splitParagraphs ptext) off cidx with
    | none => none
    | some (cs1, off1, cidx1) =>
      match chunkPages rc rest off1 cidx1 with
      | none => none
      | some (cs2, o, i) => some (cs1 ++ cs2, o, i)

/-- `RecursiveChunker::chunk`; `none` models the panic reachable through
`hard_split`. -/
def chunk (rc : RecursiveChunker) (textWithPages : List (Nat × String)) :
    Option (List TextChunk) :=
  (chunkPages rc textWithPages 0 0).map (·.1)

end RecursiveChunker

/-! ## FAQ chunker (`src/crates/rag-indexing/src/faq.rs`)

The external tokenizer (`tiktoken::count_tokens` at the chunker's fixed model)
is modelled by a parameter `tc : String → Nat`, and the external
`jieba_rs::Jieba::cut(text, true)` word segmenter by a parameter
`cut : String → List String`. -/

/-- `FAQEntry` from `faq.rs`. -/
structure FAQEntry where
  category : String
  q : String
  a : String
  tags : List String
deriving Repr, DecidableEq

/-- `FAQChunk` from `faq.rs`. -/
structure FAQChunk where
  chunk_id : String
  faq_id : String
  category : String
  title : String
  content : String
  tags : List String
  token_count : Nat
deriving Repr, DecidableEq

/-- `FAQChunker` (fields `max_tokens`, `overlap`, `model`; the `jieba`
segmenter and the tokenizer derived from `model` are the external parameters
`cut` and `tc`). -/
structure FAQChunker where
  max_tokens : Nat
  overlap : Nat
  model : String

namespace FAQChunker

/-- The `sentence_endings` of `split_into_semantic_units`. -/
def sentenceEndings : List Char := ['.', '。', '!', '！', '?', '？', ';', '；']

/-- The `clause_endings` of `split_into_semantic_units`. -/
def clauseEndings : List Char := ['，', ',', '、', '：', ':', '\n']

/-- The word loop of `split_into_semantic_units` over the segmenter output. -/
def semanticUnitsAux : List String → String → List String → List String
  | [], current, units =>
    let units := if trimStr current ≠ "" then units ++ [trimStr current] else units
    units.filter (· ≠ "")
  | w :: rest, current, units =>
    let current := current ++ w
    let hasSentenceEnd := strAny w (fun c => sentenceEndings.contains c)
    let hasClauseEnd := strAny w (fun c => clauseEndings.contains c)
    if hasSentenceEnd then semanticUnitsAux rest "" (units ++ [trimStr current])
    else if hasClauseEnd ∧ current.utf8ByteSize > 50 then
      semanticUnitsAux rest "" (units ++ [trimStr current])
    else semanticUnitsAux rest current units

/-- `split_into_semantic_units`. -/
def splitIntoSemanticUnits (cut : String → List String) (text : String) :
    List String :=
  semanticUnitsAux (cut text) "" []

/-- The delimiter set of the sentence-split fallback in `split_long_qa`. -/
def fallbackDelims : List Char := ['。', '！', '？', '.', '!', '?', '；', ';']

/-- The sentence-split fallback of `split_long_qa`. -/
def fallbackUnits (text : String) : List String :=
  ((splitBy (fallbackDelims.contains ·) text).filter
    (fun s => trimStr s ≠ "")).map trimStr

/-- The unit list `split_long_qa` iterates over: the semantic units unless
they number at most one, in which case the sentence-split fallback. -/
def unitsOf (cut : String → List String) (text : String) : List String :=
  let su := splitIntoSemanticUnits cut text
  if su.length > 1 then su else fallbackUnits text

/-- The inclusive slice `&units[b..=e-1]` (equivalently `[b..e)`). -/
def window (units : List String) (b e : Nat) : List String :=
  (units.drop b).take (e - b)

/-- The unit loop of `split_long_qa`, recorded as the list of emitted chunks,
each as its `current_units` list together with its stored
`current_token_count`.  (`split_long_qa` materializes each emitted pair
`(us, tok)` as an `FAQChunk` with `content = us.join("")` and
`token_count = tok`; see `mkFAQChunk`/`splitLongQA` below.) -/
def splitLongQAAux (fc : FAQChunker) (tc : String → Nat) (units : List String) :
    Nat → Nat → List String → Nat → List (List String × Nat)
  | 0, _, current, curTok =>
    if current ≠ [] then [(current, curTok)] else []
  | fuel + 1, idx, current, curTok =>
    if h : idx < units.length then
      let unit := units.get ⟨idx, h⟩
      let ut := trimStr unit
      if ut = "" then splitLongQAAux fc tc units fuel (idx + 1) current curTok
      else
        let utok := tc ut
        let newTok := curTok + utok
        if newTok > fc.max_tokens ∧ current ≠ [] then
          if fc.overlap > 0 then
            -- keep the `overlap` units before the current one, plus it
            let startIdx := idx - fc.overlap
            let newCurrent := (window units startIdx (idx + 1)).map trimStr
            let newTok2 := tc (String.join newCurrent)
            (current, curTok) ::
              splitLongQAAux fc tc units fuel (idx + 1) newCurrent newTok2
          else
            (current, curTok) ::
              splitLongQAAux fc tc units fuel (idx + 1) [ut] utok
        else
          splitLongQAAux fc tc units fuel (idx + 1) (current ++ [ut]) newTok
    else
      if current ≠ [] then [(current, curTok)] else []

/-- The emitted (units, token-count) pairs of `split_long_qa` on `text`.  The
fuel `units.length` is exactly the number of loop iterations: the loop
advances `idx` by one per step, and the fuel-exhausted and index-exhausted
base cases coincide (both are the final-chunk flush). -/
def splitLongQAUnits (fc : FAQChunker) (tc : String → Nat)
    (cut : String → List String) (text : String) : List (List String × Nat) :=
  let units := unitsOf cut text
  splitLongQAAux fc tc units units.length 0 [] 0

/-- Materialize one emitted chunk of `split_long_qa`
(`current_chunk_idx = chunkIdx`, `content = units.join("")`). -/
def mkFAQChunk (faqId : String) (entry : FAQEntry) (chunkIdx : Nat)
    (units : List String) (tok : Nat) : FAQChunk :=
  { chunk_id := faqId ++ "-chunk-" ++ toString chunkIdx
    faq_id := faqId
    category := entry.category
    title := trimStr entry.q
    content := String.join units
    tags := entry.tags
    token_count := tok }

/-- `split_long_qa` (the chunk counter starts at 1 and is bumped exactly once
per emitted chunk). -/
def splitLongQA (fc : FAQChunker) (tc : String → Nat)
    (cut : String → List String) (text faqId : String) (entry : FAQEntry) :
    List FAQChunk :=
  (fc.splitLongQAUnits tc cut text).mapIdx fun i p =>
    mkFAQChunk faqId entry (i + 1) p.1 p.2

/-- `format!("{:03}", n)`. -/
def pad3 (n : Nat) : String :=
  let s := toString n
  String.join (List.replicate (3 - s.length) "0") ++ s

/-- The `faq_id` built in `chunk_by_qa`. -/
def faqIdOf (entry : FAQEntry) (entryIdx : Nat) : String :=
  let categoryKey := lowerStr (replaceSpaceDash entry.category)
  "faq-" ++ categoryKey ++ "-" ++ pad3 (entryIdx + 1)

/-- The `raw_content` string `format!("Q: {}\nA: {}", q.trim(), a.trim())`. -/
def rawContent (entry : FAQEntry) : String :=
  "Q: " ++ trimStr entry.q ++ "\nA: " ++ trimStr entry.a

/-- The entry loop of `chunk_by_qa` with the running `entry_idx`. -/
def chunkByQAAux (fc : FAQChunker) (tc : String → Nat)
    (cut : String → List String) : List FAQEntry → Nat → List FAQChunk
  | [], _ => []
  | entry :: rest, entryIdx =>
    let faqId := faqIdOf entry entryIdx
    let raw := rawContent entry
    let rawTok := tc raw
    let these :=
      if rawTok > fc.max_tokens then fc.splitLongQA tc cut raw faqId entry
      else [mkFAQChunk faqId entry 1 [raw] rawTok]
    these ++ chunkByQAAux fc tc cut rest (entryIdx + 1)

/-- `FAQChunker::chunk_by_qa`. -/
def chunkByQA (fc : FAQChunker) (tc : String → Nat)
    (cut : String → List String) (entries : List FAQEntry) : List FAQChunk :=
  chunkByQAAux fc tc cut entries 0

end FAQChunker

/-! ## Claims: the tokenizer service (C4) -/

/-- Every model-name key matched by a non-default arm of
`normalize_model_name` in `tiktoken.rs`. -/
def aliasKeys : List String :=
  ["gpt-4", "gpt-4-turbo", "gpt-4o", "gpt-4o-mini",
   "gpt-3.5", "gpt-3.5-turbo", "chatgpt",
   "text-embedding-3-small", "embedding-small",
   "text-embedding-3-large", "embedding-large",
   "text-embedding-ada-002", "ada"]

/-- A name whose trimmed lowercase form is not an alias key falls through to
the default arm and passes through `normalize_model_name` unchanged. -/
theorem normalizeModelName_unknown (m : String)
    (hm : lowerStr (trimStr m) ∉ aliasKeys) : normalizeModelName m = m := by
  simp only [aliasKeys, List.mem_cons, List.not_mem_nil, or_false, not_or] at hm
  obtain ⟨h1, h2, h3, h4, h5, h6, h7, h8, h9, h10, h11, h12, h13⟩ := hm
  simp only [normalizeModelName]
  split_ifs with hA hB hC hD hE <;> first | rfl | tauto

/-- C4, counterexample: contrary to the claim, the Tokenizer Service of
`tiktoken.rs` does not normalize `"qwen-max"` to a canonical encoder key — its
`normalize_model_name` has no Qwen arm, so `"qwen-max"` passes through
unchanged and is not one of the five canonical encoder keys. -/
theorem C4_counterexample :
    normalizeModelName "qwen-max" = "qwen-max" ∧
    normalizeModelName "qwen-max" ∉ canonicalEncoderKeys := by decide

/-- C4, amended: the Tokenizer Service normalizes `"gpt-4"` and
`"gpt-4-turbo"` to the canonical encoder key `"gpt-4o"` (so `count_tokens`
agrees on them for any encoder family), while `"qwen-max"` — like every name
that is not an alias key — passes through normalization unchanged. -/
theorem C4_theorem (enc : String → String → Nat) (text m : String)
    (hm : lowerStr (trimStr m) ∉ aliasKeys) :
    countTokens enc text "gpt-4" = countTokens enc text "gpt-4-turbo" ∧
    normalizeModelName "gpt-4" = "gpt-4o" ∧
    normalizeModelName "gpt-4-turbo" = "gpt-4o" ∧
    normalizeModelName "qwen-max" = "qwen-max" ∧
    countTokens enc text m = enc m text := by
  have h4 : normalizeModelName "gpt-4" = "gpt-4o" := by decide
  have h4t : normalizeModelName "gpt-4-turbo" = "gpt-4o" := by decide
  refine ⟨?_, h4, h4t, by decide, ?_⟩
  · simp [countTokens, h4, h4t]
  · simp [countTokens, normalizeModelName_unknown m hm]

/-- C4, witness: the amended statement at the length encoder, the text
`"hello"` and the unknown model name `"my-model"`. -/
theorem C4_witness :
    (lowerStr (trimStr "my-model") ∉ aliasKeys) ∧
    (countTokens (fun _ s => s.length) "hello" "gpt-4" =
        countTokens (fun _ s => s.length) "hello" "gpt-4-turbo" ∧
      normalizeModelName "gpt-4" = "gpt-4o" ∧
      normalizeModelName "gpt-4-turbo" = "gpt-4o" ∧
      normalizeModelName "qwen-max" = "qwen-max" ∧
      countTokens (fun _ s => s.length) "hello" "my-model" =
        (fun _ s => s.length) "my-model" "hello") :=
  ⟨by decide, C4_theorem (fun _ s => s.length) "hello" "my-model" (by decide)⟩

/-! ## The hierarchy invariant of the markdown tree builder (C1)

`add_node` never touches a node's metadata or its `Parent` relationship: it
only pushes onto the parent's `Child` list, sets the previous sibling's `Next`
and the new node's `Previous`.  So the hierarchy of every node is fixed at
construction: intermediates get their parent's hierarchy plus the title,
paragraph and code leaves get it plus the `chunk_<i>_<size>` label, and table
and image leaves get it plus two labels (`table_<n>`/`img_<n>` pushed by the
parser, then `chunk_<i>_<size>` pushed again by `Node::new_leaf`). -/

theorem mapRelationships_metadata (f : Relationships → Relationships)
    (n : Node) : (n.mapRelationships f).metadata = n.metadata := by
  cases n <;> rfl

theorem mapRelationships_isLeaf (f : Relationships → Relationships)
    (n : Node) : (n.mapRelationships f).isLeaf = n.isLeaf := by
  cases n <;> rfl

theorem mapRelationships_id (f : Relationships → Relationships)
    (n : Node) : (n.mapRelationships f).id = n.id := by
  cases n <;> rfl

theorem pushChild_parentId (c : NodeId) (n : Node) :
    (n.pushChild c).parentId = n.parentId := by
  cases n <;> rfl

theorem setNext_parentId (o : Option NodeId) (n : Node) :
    (n.setNext o).parentId = n.parentId := by
  cases n <;> rfl

theorem setPrevious_parentId (o : Option NodeId) (n : Node) :
    (n.setPrevious o).parentId = n.parentId := by
  cases n <;> rfl

theorem setPrevious_metadata (o : Option NodeId) (n : Node) :
    (n.setPrevious o).metadata = n.metadata := by
  cases n <;> rfl

theorem setPrevious_isLeaf (o : Option NodeId) (n : Node) :
    (n.setPrevious o).isLeaf = n.isLeaf := by
  cases n <;> rfl

/-- The observation of a node that `add_node` can never change: its metadata,
its parent id and its kind. -/
def metaView (o : Option Node) : Option (NodeMetadata × Option NodeId × Bool) :=
  o.map fun x => (x.metadata, x.parentId, x.isLeaf)

theorem metaView_pushChild (o : Option Node) (c : NodeId) :
    metaView (o.map (Node.pushChild c)) = metaView o := by
  cases o with
  | none => rfl
  | some n =>
    simp [metaView, Node.pushChild, mapRelationships_metadata,
      mapRelationships_isLeaf, pushChild_parentId]
    exact (pushChild_parentId c n).symm ▸ rfl

theorem metaView_setNext (o : Option Node) (x : Option NodeId) :
    metaView (o.map (Node.setNext x)) = metaView o := by
  cases o with
  | none => rfl
  | some n =>
    simp [metaView, Node.setNext, mapRelationships_metadata,
      mapRelationships_isLeaf]
    exact (setNext_parentId x n).symm ▸ rfl

/-- A successful `add_node` has read the child's parent id and found it. -/
theorem addNodeS_ok_parent (t : NodeTree) (n : Node)
    (hok : (t.addNodeS n).2 = .ok ()) :
    ∃ pid par, n.parentId = some pid ∧ t.nodes pid = some par := by
  unfold NodeTree.addNodeS at hok
  rcases hp : n.parentId with _ | pid
  · rw [hp] at hok
    simp only at hok
    cases hok
  · rw [hp] at hok
    simp only at hok
    rcases hpar : t.nodes pid with _ | par
    · rw [hpar] at hok
      simp only at hok
      cases hok
    · exact ⟨pid, par, rfl, hpar⟩

/-- `add_node` leaves the root id unchanged. -/
theorem addNodeS_root (t : NodeTree) (n : Node) :
    (t.addNodeS n).1.root = t.root := by
  unfold NodeTree.addNodeS
  rcases hp : n.parentId with _ | pid
  · simp only [hp]
  · simp only [hp]
    rcases hpar : t.nodes pid with _ | par
    · simp only [hpar]
    · simp only [hpar]
      rcases hgl : (Node.pushChild n.id par).children.reverse.get? 1
        with _ | lc <;> simp only [hgl]

/-- After a successful `add_node`, the new node's id maps to the child's
metadata view and every other id keeps its old metadata view. -/
theorem addNodeS_metaView (t : NodeTree) (n : Node)
    (hok : (t.addNodeS n).2 = .ok ()) (id : NodeId) :
    metaView ((t.addNodeS n).1.nodes id)
      = if id = n.id then some (n.metadata, n.parentId, n.isLeaf)
        else metaView (t.nodes id) := by
  unfold NodeTree.addNodeS at hok ⊢
  rcases hp : n.parentId with _ | pid
  · rw [hp] at hok
    simp only at hok
    cases hok
  · rw [hp] at hok
    simp only at hok ⊢
    rcases hpar : t.nodes pid with _ | par
    · rw [hpar] at hok
      simp only at hok
      cases hok
    · simp only []
      rcases hgl : (Node.pushChild n.id par).children.reverse.get? 1
        with _ | lc <;> simp only []

      · by_cases hid : id = n.id
        · simp [NodeTree.mapInsert, hid, metaView, hp]
        · simp only [NodeTree.mapInsert, if_neg hid]
          by_cases hpid : id = pid
          · subst hpid
            rw [if_pos rfl, hpar]
            simpa using metaView_pushChild (some par) n.id
          · rw [if_neg hpid]
      · have hkey : (Node.setPrevious (some lc) n).id = n.id :=
          mapRelationships_id _ n
        by_cases hid : id = n.id
        · simp only [NodeTree.mapInsert, hkey, if_pos hid]
          simp [metaView, hp, hid, setPrevious_metadata, setPrevious_isLeaf,
            setPrevious_parentId]
        · simp only [NodeTree.mapInsert, hkey, if_neg hid,
            NodeTree.mapAdjust]
          by_cases hlc : id = lc
          · rw [if_pos hlc, metaView_setNext]
            by_cases hpid : lc = pid
            · rw [if_pos hpid, hlc, hpid, hpar]
              simpa using metaView_pushChild (some par) n.id
            · rw [if_neg hpid, hlc]
          · rw [if_neg hlc]
            by_cases hpid : id = pid
            · subst hpid
              rw [if_pos rfl, hpar]
              simpa using metaView_pushChild (some par) n.id
            · rw [if_neg hpid]

/-- The hierarchy invariant of a tree: every node with a present parent
extends the parent's hierarchy by one element, or by two for a leaf; and
every present parent id resolves. -/
def HierOk (t : NodeTree) : Prop :=
  (∀ id n pid np, t.nodes id = some n → n.parentId = some pid →
    t.nodes pid = some np →
    ∃ ext, n.metadata.hierarchy = np.metadata.hierarchy ++ ext ∧
      (ext.length = 1 ∨ (ext.length = 2 ∧ n.isLeaf = true))) ∧
  (∀ id n pid, t.nodes id = some n → n.parentId = some pid →
    ∃ np, t.nodes pid = some np)

/-- A present lookup with a matching hierarchy, preserved by `add_node`. -/
def CurOk (t : NodeTree) (cp : NodeId) (ch : List String) : Prop :=
  ∃ pn, t.nodes cp = some pn ∧ pn.metadata.hierarchy = ch

/-- Every heading-stack entry is a present node with matching hierarchy. -/
def StackOk (t : NodeTree) (stack : List (NodeId × List String)) : Prop :=
  ∀ e ∈ stack, CurOk t e.1 e.2

/-- Every present id is below the fresh-id counter. -/
def FreshOk (t : NodeTree) (nid : Nat) : Prop :=
  ∀ id n, t.nodes id = some n → id < nid

theorem tripleEq {m₁ m₂ : NodeMetadata} {p₁ p₂ : Option NodeId} {l₁ l₂ : Bool}
    (h : (m₁, p₁, l₁) = (m₂, p₂, l₂)) : m₁ = m₂ ∧ p₁ = p₂ ∧ l₁ = l₂ := by
  injection h with h1 h2
  injection h2 with h2 h3
  exact ⟨h1, h2, h3⟩

theorem metaView_some (t : NodeTree) (id : NodeId) (n : Node)
    (h : t.nodes id = some n) :
    metaView (t.nodes id) = some (n.metadata, n.parentId, n.isLeaf) := by
  rw [h]; rfl

theorem curOk_addNode (t : NodeTree) (n : Node) (cp : NodeId)
    (ch : List String) (hok : (t.addNodeS n).2 = .ok ())
    (hfresh : t.nodes n.id = none) (h : CurOk t cp ch) :
    CurOk (t.addNodeS n).1 cp ch := by
  obtain ⟨pn, hpn, hh⟩ := h
  have hne : cp ≠ n.id := fun he => by rw [he, hfresh] at hpn; cases hpn
  have hmv := addNodeS_metaView t n hok cp
  rw [if_neg hne, metaView_some t cp pn hpn] at hmv
  rcases hx : (t.addNodeS n).1.nodes cp with _ | m
  · rw [hx] at hmv
    cases hmv
  · rw [metaView_some _ cp m hx] at hmv
    obtain ⟨h1, _, _⟩ := tripleEq (Option.some.inj hmv)
    exact ⟨m, hx, by rw [h1, hh]⟩

theorem curOk_addNode_self (t : NodeTree) (n : Node)
    (hok : (t.addNodeS n).2 = .ok ()) :
    CurOk (t.addNodeS n).1 n.id n.metadata.hierarchy := by
  have hmv := addNodeS_metaView t n hok n.id
  rw [if_pos rfl] at hmv
  rcases hx : (t.addNodeS n).1.nodes n.id with _ | m
  · rw [hx] at hmv
    cases hmv
  · rw [metaView_some _ n.id m hx] at hmv
    obtain ⟨h1, _, _⟩ := tripleEq (Option.some.inj hmv)
    exact ⟨m, hx, by rw [h1]⟩

theorem stackOk_addNode (t : NodeTree) (n : Node)
    (stack : List (NodeId × List String)) (hok : (t.addNodeS n).2 = .ok ())
    (hfresh : t.nodes n.id = none) (h : StackOk t stack) :
    StackOk (t.addNodeS n).1 stack :=
  fun e he => curOk_addNode t n e.1 e.2 hok hfresh (h e he)

theorem freshOk_addNode (t : NodeTree) (n : Node) (nid : Nat)
    (hok : (t.addNodeS n).2 = .ok ()) (hid : n.id = nid)
    (h : FreshOk t nid) : FreshOk (t.addNodeS n).1 (nid + 1) := by
  intro id m hm
  have hmv := addNodeS_metaView t n hok id
  by_cases hidn : id = n.id
  · rw [hidn, hid]
    exact Nat.lt_succ_self nid
  · rw [if_neg hidn, metaView_some _ id m hm] at hmv
    rcases hx : t.nodes id with _ | m0
    · rw [hx] at hmv
      cases hmv
    · exact Nat.lt_succ_of_lt (h id m0 hx)

theorem hierOk_addNode (t : NodeTree) (n : Node)
    (hok : (t.addNodeS n).2 = .ok ()) (hfresh : t.nodes n.id = none)
    (hinv : HierOk t)
    (hext : ∀ pid np, n.parentId = some pid → t.nodes pid = some np →
      ∃ ext, n.metadata.hierarchy = np.metadata.hierarchy ++ ext ∧
        (ext.length = 1 ∨ (ext.length = 2 ∧ n.isLeaf = true))) :
    HierOk (t.addNodeS n).1 := by
  obtain ⟨pid0, par0, hp0, hpar0⟩ := addNodeS_ok_parent t n hok
  have hback : ∀ id m, (t.addNodeS n).1.nodes id = some m → id ≠ n.id →
      ∃ m0, t.nodes id = some m0 ∧ m0.metadata = m.metadata ∧
        m0.parentId = m.parentId ∧ m0.isLeaf = m.isLeaf := by
    intro id m hm hne
    have hmv := addNodeS_metaView t n hok id
    rw [if_neg hne, metaView_some _ id m hm] at hmv
    rcases hx : t.nodes id with _ | m0
    · rw [hx] at hmv
      cases hmv
    · rw [metaView_some _ id m0 hx] at hmv
      obtain ⟨h1, h2, h3⟩ := tripleEq (Option.some.inj hmv.symm)
      exact ⟨m0, rfl, h1, h2, h3⟩
  have hfwd : ∀ id m0, t.nodes id = some m0 →
      ∃ m, (t.addNodeS n).1.nodes id = some m ∧ m.metadata = m0.metadata ∧
        m.parentId = m0.parentId ∧ m.isLeaf = m0.isLeaf := by
    intro id m0 hm0
    have hne : id ≠ n.id := fun he => by rw [he, hfresh] at hm0; cases hm0
    have hmv := addNodeS_metaView t n hok id
    rw [if_neg hne, metaView_some _ id m0 hm0] at hmv
    rcases hx : (t.addNodeS n).1.nodes id with _ | m
    · rw [hx] at hmv
      cases hmv
    · rw [metaView_some _ id m hx] at hmv
      obtain ⟨h1, h2, h3⟩ := tripleEq (Option.some.inj hmv)
      exact ⟨m, rfl, h1, h2, h3⟩
  have hself : ∃ m, (t.addNodeS n).1.nodes n.id = some m ∧
      m.metadata = n.metadata ∧ m.parentId = n.parentId ∧
      m.isLeaf = n.isLeaf := by
    have hmv := addNodeS_metaView t n hok n.id
    rw [if_pos rfl] at hmv
    rcases hx : (t.addNodeS n).1.nodes n.id with _ | m
    · rw [hx] at hmv
      cases hmv
    · rw [metaView_some _ n.id m hx] at hmv
      obtain ⟨h1, h2, h3⟩ := tripleEq (Option.some.inj hmv)
      exact ⟨m, rfl, h1, h2, h3⟩
  constructor
  · intro id nx pidx npx hnx hpx hnpx
    by_cases hid : id = n.id
    · subst hid
      obtain ⟨m, hm, hmm, hmp, hml⟩ := hself
      rw [hm] at hnx
      obtain rfl := Option.some.inj hnx
      have hpid : pidx = pid0 := by
        rw [hmp, hp0] at hpx
        exact (Option.some.inj hpx).symm
      subst hpid
      have hne0 : pidx ≠ n.id := fun he => by
        rw [he, hfresh] at hpar0
        cases hpar0
      obtain ⟨m0, hm0, hm0m, _, _⟩ := hback pidx npx hnpx hne0
      rw [hpar0] at hm0
      obtain rfl := Option.some.inj hm0
      obtain ⟨ext, hexteq, hcase⟩ := hext pidx par0 hp0 hpar0
      exact ⟨ext, by rw [hmm, hexteq, hm0m], by rw [hml]; exact hcase⟩
    · obtain ⟨m0, hm0, hm0m, hm0p, hm0l⟩ := hback id nx hnx hid
      have hpx0 : m0.parentId = some pidx := by rw [hm0p, hpx]
      obtain ⟨np0, hnp0⟩ := hinv.2 id m0 pidx hm0 hpx0
      have hpne : pidx ≠ n.id := fun he => by
        rw [he, hfresh] at hnp0
        cases hnp0
      obtain ⟨np0', hnp0', hnpm, _, _⟩ := hback pidx npx hnpx hpne
      rw [hnp0] at hnp0'
      obtain rfl := Option.some.inj hnp0'
      obtain ⟨ext, hexteq, hcase⟩ := hinv.1 id m0 pidx np0 hm0 hpx0 hnp0
      refine ⟨ext, ?_, ?_⟩
      · rw [← hm0m, hexteq, hnpm]
      · rcases hcase with h1 | ⟨h2, hl⟩
        · exact Or.inl h1
        · exact Or.inr ⟨h2, by rw [← hm0l]; exact hl⟩
  · intro id nx pidx hnx hpx
    by_cases hid : id = n.id
    · subst hid
      obtain ⟨m, hm, _, hmp, _⟩ := hself
      rw [hm] at hnx
      obtain rfl := Option.some.inj hnx
      have hpid : pidx = pid0 := by
        rw [hmp, hp0] at hpx
        exact (Option.some.inj hpx).symm
      subst hpid
      obtain ⟨np, hnp, _⟩ := hfwd pidx par0 hpar0
      exact ⟨np, hnp⟩
    · obtain ⟨m0, hm0, _, hm0p, _⟩ := hback id nx hnx hid
      have hpx0 : m0.parentId = some pidx := by rw [hm0p, hpx]
      obtain ⟨np0, hnp0⟩ := hinv.2 id m0 pidx hm0 hpx0
      obtain ⟨np, hnp, _⟩ := hfwd pidx np0 hnp0
      exact ⟨np, hnp⟩

theorem newRoot_parentId (i : NodeId) (d : String) (f : Option String) :
    (Node.newRoot i d f).parentId = none := rfl

theorem newIntermediate_parentId (i pid : NodeId) (ti : Option String)
    (h : List String) (d : String) :
    (Node.newIntermediate i pid ti h d).parentId = some pid := rfl

theorem newIntermediate_hierarchy (i pid : NodeId) (ti : Option String)
    (h : List String) (d : String) :
    (Node.newIntermediate i pid ti h d).metadata.hierarchy = h := rfl

theorem newLeaf_parentId (i pid : NodeId) (tx : String) (cs ci : Nat)
    (h : List String) (d : String) (ia ip ii f : Option String) :
    (Node.newLeaf i pid tx cs ci h d ia ip ii f).parentId = some pid := rfl

theorem newLeaf_hierarchy (i pid : NodeId) (tx : String) (cs ci : Nat)
    (h : List String) (d : String) (ia ip ii f : Option String) :
    (Node.newLeaf i pid tx cs ci h d ia ip ii f).metadata.hierarchy
      = h ++ [s!"chunk_{ci}_{cs}"] := rfl

theorem newLeaf_isLeaf (i pid : NodeId) (tx : String) (cs ci : Nat)
    (h : List String) (d : String) (ia ip ii f : Option String) :
    (Node.newLeaf i pid tx cs ci h d ia ip ii f).isLeaf = true := rfl

theorem freshOk_none (t : NodeTree) (nid : Nat) (h : FreshOk t nid) :
    t.nodes nid = none := by
  rcases hx : t.nodes nid with _ | m
  · rfl
  · exact absurd (h nid m hx) (lt_irrefl nid)

/-- The four tree-shaped invariant components, transported through one
successful `add_node` of a fresh well-extending node. -/
theorem treeInv_add (t : NodeTree) (stack : List (NodeId × List String))
    (cp : NodeId) (ch : List String) (nid : Nat) (node : Node)
    (hh : HierOk t) (hst : StackOk t stack) (hcur : CurOk t cp ch)
    (hroot : CurOk t t.root ["Root"]) (hfr : FreshOk t nid)
    (hid : node.id = nid) (hok : (t.addNodeS node).2 = .ok ())
    (hext : ∀ pid np, node.parentId = some pid → t.nodes pid = some np →
      ∃ ext, node.metadata.hierarchy = np.metadata.hierarchy ++ ext ∧
        (ext.length = 1 ∨ (ext.length = 2 ∧ node.isLeaf = true))) :
    HierOk (t.addNodeS node).1 ∧ StackOk (t.addNodeS node).1 stack ∧
    CurOk (t.addNodeS node).1 cp ch ∧
    CurOk (t.addNodeS node).1 (t.addNodeS node).1.root ["Root"] ∧
    FreshOk (t.addNodeS node).1 (nid + 1) := by
  have hfresh : t.nodes node.id = none := by
    rw [hid]
    exact freshOk_none t nid hfr
  refine ⟨hierOk_addNode t node hok hfresh hh hext,
    stackOk_addNode t node stack hok hfresh hst,
    curOk_addNode t node cp ch hok hfresh hcur, ?_,
    freshOk_addNode t node nid hok hid hfr⟩
  rw [addNodeS_root]
  exact curOk_addNode t node t.root _ hok hfresh hroot

/-- The top of the heading stack (with the root fallback) is always a present
node whose hierarchy matches. -/
theorem stackTop_curOk (t : NodeTree) (stack : List (NodeId × List String))
    (hst : StackOk t stack) (hroot : CurOk t t.root ["Root"]) :
    CurOk t (stack.getLast?.getD (t.root, ["Root"])).1
      (stack.getLast?.getD (t.root, ["Root"])).2 := by
  rcases hl : stack.getLast? with _ | e
  · simpa using hroot
  · have he : e ∈ stack := by
      obtain ⟨hne, heq⟩ :=
        List.mem_getLast?_eq_getLast (Option.mem_def.mpr hl)
      rw [heq]
      exact List.getLast_mem hne
    simpa using hst e he

/-- The full state invariant of the `parse` loop. -/
def StInv (s : MdState) : Prop :=
  HierOk s.tree ∧ StackOk s.tree s.headingStack ∧
  CurOk s.tree s.currentParentId s.currentHierarchy ∧
  CurOk s.tree s.tree.root ["Root"] ∧
  FreshOk s.tree s.nextId

theorem initState_nodes (p : MarkdownParser) (id : NodeId) :
    p.initState.tree.nodes id
      = if id = 0 then some (Node.newRoot 0 p.document_id p.file_name)
        else none := rfl

theorem stInv_init (p : MarkdownParser) : StInv p.initState := by
  have hroot : CurOk p.initState.tree 0 ["Root"] :=
    ⟨Node.newRoot 0 p.document_id p.file_name,
      by rw [initState_nodes, if_pos rfl], rfl⟩
  refine ⟨⟨?_, ?_⟩, ?_, hroot, hroot, ?_⟩
  · intro id n pid np hn hp hnp
    rw [initState_nodes] at hn
    by_cases h0 : id = 0
    · rw [if_pos h0] at hn
      obtain rfl := Option.some.inj hn
      rw [newRoot_parentId] at hp
      cases hp
    · rw [if_neg h0] at hn
      cases hn
  · intro id n pid hn hp
    rw [initState_nodes] at hn
    by_cases h0 : id = 0
    · rw [if_pos h0] at hn
      obtain rfl := Option.some.inj hn
      rw [newRoot_parentId] at hp
      cases hp
    · rw [if_neg h0] at hn
      cases hn
  · intro e he
    have : e = (0, ["Root"]) := by simpa [MarkdownParser.initState] using he
    rw [this]
    exact hroot
  · intro id n hn
    rw [initState_nodes] at hn
    by_cases h0 : id = 0
    · rw [h0]
      exact Nat.zero_lt_one
    · rw [if_neg h0] at hn
      cases hn


theorem newIntermediate_id (i pid : NodeId) (ti : Option String)
    (h : List String) (d : String) :
    (Node.newIntermediate i pid ti h d).id = i := rfl

theorem newLeaf_id (i pid : NodeId) (tx : String) (cs ci : Nat)
    (h : List String) (d : String) (ia ip ii f : Option String) :
    (Node.newLeaf i pid tx cs ci h d ia ip ii f).id = i := rfl

/-- The hierarchy-extension obligation of a leaf hung under the current
parent with the current hierarchy: one extra `chunk_..` element. -/
theorem leafExt (t : NodeTree) (cp : NodeId) (ch : List String)
    (hcur : CurOk t cp ch) (i : NodeId) (tx : String) (cs ci : Nat)
    (d : String) (ia ip ii f : Option String) :
    ∀ pid np,
      (Node.newLeaf i cp tx cs ci ch d ia ip ii f).parentId = some pid →
      t.nodes pid = some np →
      ∃ ext, (Node.newLeaf i cp tx cs ci ch d ia ip ii f).metadata.hierarchy
          = np.metadata.hierarchy ++ ext ∧
        (ext.length = 1 ∨ (ext.length = 2 ∧
          (Node.newLeaf i cp tx cs ci ch d ia ip ii f).isLeaf = true)) := by
  intro pid np hpid hnp
  rw [newLeaf_parentId] at hpid
  obtain rfl := Option.some.inj hpid
  obtain ⟨pn, hpn, hph⟩ := hcur
  rw [hnp] at hpn
  obtain rfl := Option.some.inj hpn
  refine ⟨[s!"chunk_{ci}_{cs}"], ?_, Or.inl rfl⟩
  rw [newLeaf_hierarchy, hph]

/-- The hierarchy-extension obligation of a table/image leaf: the synthetic
`table_..`/`img_..` element and the `chunk_..` element — two extra. -/
theorem leafExt2 (t : NodeTree) (cp : NodeId) (ch : List String)
    (hcur : CurOk t cp ch) (lbl : String) (i : NodeId) (tx : String)
    (cs ci : Nat) (d : String) (ia ip ii f : Option String) :
    ∀ pid np,
      (Node.newLeaf i cp tx cs ci (ch ++ [lbl]) d ia ip ii f).parentId
        = some pid →
      t.nodes pid = some np →
      ∃ ext,
        (Node.newLeaf i cp tx cs ci (ch ++ [lbl]) d ia ip ii f).metadata.hierarchy
          = np.metadata.hierarchy ++ ext ∧
        (ext.length = 1 ∨ (ext.length = 2 ∧
          (Node.newLeaf i cp tx cs ci (ch ++ [lbl]) d ia ip ii f).isLeaf
            = true)) := by
  intro pid np hpid hnp
  rw [newLeaf_parentId] at hpid
  obtain rfl := Option.some.inj hpid
  obtain ⟨pn, hpn, hph⟩ := hcur
  rw [hnp] at hpn
  obtain rfl := Option.some.inj hpn
  refine ⟨[lbl, s!"chunk_{ci}_{cs}"], ?_, Or.inr ⟨rfl, newLeaf_isLeaf _ _ _ _ _ _ _ _ _ _ _⟩⟩
  rw [newLeaf_hierarchy, hph, List.append_assoc, List.singleton_append]

/-- One step of the event loop preserves the state invariant. -/
theorem stInv_step (p : MarkdownParser) (s s' : MdState) (ev : MdEvent)
    (hinv : StInv s) (h : p.step s ev = .ok s') : StInv s' := by
  obtain ⟨hh, hst, hcur, hroot, hfr⟩ := hinv
  have hstTake : ∀ lvl, StackOk s.tree (MarkdownParser.popStack s.headingStack lvl) :=
    fun lvl e he => hst e (List.take_subset _ _ he)
  cases ev with
  | startHeading level =>
    simp only [MarkdownParser.step] at h
    obtain rfl := Except.ok.inj h
    exact ⟨hh, hstTake level, hcur, hroot, hfr⟩
  | startCodeBlock =>
    simp only [MarkdownParser.step] at h
    obtain rfl := Except.ok.inj h
    exact ⟨hh, hst, hcur, hroot, hfr⟩
  | startTable =>
    simp only [MarkdownParser.step] at h
    obtain rfl := Except.ok.inj h
    exact ⟨hh, hst, hcur, hroot, hfr⟩
  | startImage destUrl title =>
    simp only [MarkdownParser.step] at h
    obtain rfl := Except.ok.inj h
    exact ⟨hh, hst, hcur, hroot, hfr⟩
  | otherStart =>
    simp only [MarkdownParser.step] at h
    obtain rfl := Except.ok.inj h
    exact ⟨hh, hst, hcur, hroot, hfr⟩
  | endHeading =>
    simp only [MarkdownParser.step] at h
    rcases hph : s.pendingHeading with _ | ⟨level, htext⟩
    · rw [hph] at h
      simp only at h
      obtain rfl := Except.ok.inj h
      exact ⟨hh, hst, hcur, hroot, hfr⟩
    · rw [hph] at h
      simp only at h
      by_cases ht : trimStr htext = ""
      · rw [if_pos ht] at h
        obtain rfl := Except.ok.inj h
        exact ⟨hh, hst, hcur, hroot, hfr⟩
      · rw [if_neg ht] at h
        split at h
        · cases h
        · rename_i u heq
          obtain rfl := Except.ok.inj h
          have hst₂ := hstTake level
          have htop := stackTop_curOk s.tree (MarkdownParser.popStack s.headingStack level)
            hst₂ hroot
          have hfresh : s.tree.nodes s.nextId = none :=
            freshOk_none s.tree s.nextId hfr
          have hext : ∀ pid np,
              (Node.newIntermediate s.nextId
                ((MarkdownParser.popStack s.headingStack level).getLast?.getD
                  (s.tree.root, ["Root"])).1 (some (trimStr htext))
                (((MarkdownParser.popStack s.headingStack level).getLast?.getD
                  (s.tree.root, ["Root"])).2 ++ [trimStr htext])
                p.document_id).parentId = some pid →
              s.tree.nodes pid = some np →
              ∃ ext,
                (Node.newIntermediate s.nextId
                  ((MarkdownParser.popStack s.headingStack level).getLast?.getD
                    (s.tree.root, ["Root"])).1 (some (trimStr htext))
                  (((MarkdownParser.popStack s.headingStack level).getLast?.getD
                    (s.tree.root, ["Root"])).2 ++ [trimStr htext])
                  p.document_id).metadata.hierarchy
                  = np.metadata.hierarchy ++ ext ∧
                (ext.length = 1 ∨ (ext.length = 2 ∧
                  (Node.newIntermediate s.nextId
                    ((MarkdownParser.popStack s.headingStack level).getLast?.getD
                      (s.tree.root, ["Root"])).1 (some (trimStr htext))
                    (((MarkdownParser.popStack s.headingStack level).getLast?.getD
                      (s.tree.root, ["Root"])).2 ++ [trimStr htext])
                    p.document_id).isLeaf = true)) := by
            intro pid np hpid hnp
            rw [newIntermediate_parentId] at hpid
            obtain rfl := Option.some.inj hpid
            obtain ⟨pn, hpn, hph'⟩ := htop
            rw [hnp] at hpn
            obtain rfl := Option.some.inj hpn
            refine ⟨[trimStr htext], ?_, Or.inl rfl⟩
            rw [newIntermediate_hierarchy, hph']
          have hhelp := hierOk_addNode s.tree _ heq hfresh hh hext
          have hcur' := curOk_addNode_self s.tree _ heq
          refine ⟨hhelp, ?_, ?_, ?_, ?_⟩
          · intro e he
            rcases List.mem_append.1 he with h1 | h2
            · exact curOk_addNode s.tree _ e.1 e.2 heq hfresh (hst₂ e h1)
            · have : e = (_, _) := List.mem_singleton.1 h2
              rw [this]
              exact hcur'
          · exact hcur'
          · rw [addNodeS_root]
            exact curOk_addNode s.tree _ _ _ heq hfresh hroot
          · exact freshOk_addNode s.tree _ s.nextId heq rfl hfr
  | endParagraph =>
    simp only [MarkdownParser.step] at h
    split at h
    · split at h
      · cases h
      · rename_i u heq
        obtain rfl := Except.ok.inj h
        have A := treeInv_add s.tree s.headingStack s.currentParentId
          s.currentHierarchy s.nextId _ hh hst hcur hroot hfr (by rfl) heq
          (leafExt s.tree _ _ hcur _ _ _ _ _ _ _ _ _)
        exact ⟨A.1, A.2.1, A.2.2.1, A.2.2.2.1, A.2.2.2.2⟩
    · obtain rfl := Except.ok.inj h
      exact ⟨hh, hst, hcur, hroot, hfr⟩
  | endCodeBlock =>
    simp only [MarkdownParser.step] at h
    split at h
    · split at h
      · split at h
        · cases h
        · rename_i u heq
          obtain rfl := Except.ok.inj h
          have A := treeInv_add s.tree s.headingStack s.currentParentId
            s.currentHierarchy s.nextId _ hh hst hcur hroot hfr (by rfl) heq
            (leafExt s.tree _ _ hcur _ _ _ _ _ _ _ _ _)
          exact ⟨A.1, A.2.1, A.2.2.1, A.2.2.2.1, A.2.2.2.2⟩
      · obtain rfl := Except.ok.inj h
        exact ⟨hh, hst, hcur, hroot, hfr⟩
    · obtain rfl := Except.ok.inj h
      exact ⟨hh, hst, hcur, hroot, hfr⟩
  | endTableHead =>
    simp only [MarkdownParser.step] at h
    split at h
    · obtain rfl := Except.ok.inj h
      exact ⟨hh, hst, hcur, hroot, hfr⟩
    · obtain rfl := Except.ok.inj h
      exact ⟨hh, hst, hcur, hroot, hfr⟩
  | endTableRow =>
    simp only [MarkdownParser.step] at h
    split at h
    · obtain rfl := Except.ok.inj h
      exact ⟨hh, hst, hcur, hroot, hfr⟩
    · obtain rfl := Except.ok.inj h
      exact ⟨hh, hst, hcur, hroot, hfr⟩
  | endTable =>
    simp only [MarkdownParser.step] at h
    split at h
    · split at h
      · split at h
        · cases h
        · rename_i u heq
          obtain rfl := Except.ok.inj h
          have A := treeInv_add s.tree s.headingStack s.currentParentId
            s.currentHierarchy s.nextId _ hh hst hcur hroot hfr (by rfl) heq
            (leafExt2 s.tree _ _ hcur _ _ _ _ _ _ _ _ _ _)
          exact ⟨A.1, A.2.1, A.2.2.1, A.2.2.2.1, A.2.2.2.2⟩
      · obtain rfl := Except.ok.inj h
        exact ⟨hh, hst, hcur, hroot, hfr⟩
    · obtain rfl := Except.ok.inj h
      exact ⟨hh, hst, hcur, hroot, hfr⟩
  | endImage =>
    simp only [MarkdownParser.step] at h
    split at h
    · split at h
      · cases h
      · rename_i u heq
        obtain rfl := Except.ok.inj h
        have A := treeInv_add s.tree s.headingStack s.currentParentId
          s.currentHierarchy s.nextId _ hh hst hcur hroot hfr (by rfl) heq
          (leafExt2 s.tree _ _ hcur _ _ _ _ _ _ _ _ _ _)
        exact ⟨A.1, A.2.1, A.2.2.1, A.2.2.2.1, A.2.2.2.2⟩
    · obtain rfl := Except.ok.inj h
      exact ⟨hh, hst, hcur, hroot, hfr⟩
  | otherEnd =>
    simp only [MarkdownParser.step] at h
    obtain rfl := Except.ok.inj h
    exact ⟨hh, hst, hcur, hroot, hfr⟩
  | text t =>
    simp only [MarkdownParser.step] at h
    rcases hph : s.pendingHeading with _ | ⟨level, htext⟩ <;> rw [hph] at h <;>
      simp only at h
    · split at h
      · obtain rfl := Except.ok.inj h
        exact ⟨hh, hst, hcur, hroot, hfr⟩
      · split at h
        · obtain rfl := Except.ok.inj h
          exact ⟨hh, hst, hcur, hroot, hfr⟩
        · split at h
          · obtain rfl := Except.ok.inj h
            exact ⟨hh, hst, hcur, hroot, hfr⟩
          · split at h
            · obtain rfl := Except.ok.inj h
              exact ⟨hh, hst, hcur, hroot, hfr⟩
            · obtain rfl := Except.ok.inj h
              exact ⟨hh, hst, hcur, hroot, hfr⟩
    · obtain rfl := Except.ok.inj h
      exact ⟨hh, hst, hcur, hroot, hfr⟩
  | code t =>
    simp only [MarkdownParser.step] at h
    split at h
    · obtain rfl := Except.ok.inj h
      exact ⟨hh, hst, hcur, hroot, hfr⟩
    · obtain rfl := Except.ok.inj h
      exact ⟨hh, hst, hcur, hroot, hfr⟩
  | softBreak =>
    simp only [MarkdownParser.step] at h
    split at h
    · obtain rfl := Except.ok.inj h
      exact ⟨hh, hst, hcur, hroot, hfr⟩
    · obtain rfl := Except.ok.inj h
      exact ⟨hh, hst, hcur, hroot, hfr⟩
  | hardBreak =>
    simp only [MarkdownParser.step] at h
    split at h
    · obtain rfl := Except.ok.inj h
      exact ⟨hh, hst, hcur, hroot, hfr⟩
    · obtain rfl := Except.ok.inj h
      exact ⟨hh, hst, hcur, hroot, hfr⟩
  | other =>
    simp only [MarkdownParser.step] at h
    obtain rfl := Except.ok.inj h
    exact ⟨hh, hst, hcur, hroot, hfr⟩

/-- The event loop preserves the state invariant. -/
theorem stInv_runEvents (p : MarkdownParser) (events : List MdEvent) :
    ∀ s s', StInv s → p.runEvents s events = .ok s' → StInv s' := by
  induction events with
  | nil =>
    intro s s' hinv h
    simp only [MarkdownParser.runEvents] at h
    obtain rfl := Except.ok.inj h
    exact hinv
  | cons ev rest ih =>
    intro s s' hinv h
    simp only [MarkdownParser.runEvents] at h
    split at h
    · cases h
    · rename_i s₁ hstep
      exact ih s₁ s' (stInv_step p s s₁ ev hinv hstep) h

/-- The final flush preserves the hierarchy invariant into the returned tree. -/
theorem hierOk_flush (p : MarkdownParser) (s : MdState) (t : NodeTree)
    (hinv : StInv s) (h : p.flush s = .ok t) : HierOk t := by
  obtain ⟨hh, hst, hcur, hroot, hfr⟩ := hinv
  simp only [MarkdownParser.flush] at h
  split at h
  · split at h
    · cases h
    · rename_i u heq
      obtain rfl := Except.ok.inj h
      exact (treeInv_add s.tree s.headingStack s.currentParentId
        s.currentHierarchy s.nextId _ hh hst hcur hroot hfr (by rfl) heq
        (leafExt s.tree _ _ hcur _ _ _ _ _ _ _ _ _)).1
  · obtain rfl := Except.ok.inj h
    exact hh

/-- Every tree returned by `parse` satisfies the hierarchy invariant. -/
theorem hierOk_parse (p : MarkdownParser) (events : List MdEvent)
    (t : NodeTree) (h : p.parse events = .ok t) : HierOk t := by
  simp only [MarkdownParser.parse] at h
  split at h
  · cases h
  · rename_i s hrun
    exact hierOk_flush p s t
      (stInv_runEvents p events p.initState s (stInv_init p) hrun) h

def c1P : MarkdownParser := ⟨"d1", none⟩

def c1Events : List MdEvent := [.startImage "u" "t", .endImage]

def c1Leaf : Node :=
  Node.newLeaf 1 0 "![t](u)" 7 0 ["Root", "img_0"] "d1"
    (some "t") (some "u") (some "u") none

def c1Root : Node := Node.pushChild 1 (Node.newRoot 0 "d1" none)

/-- C1 counterexample: parsing a document that is a single image produces an
image leaf whose hierarchy `["Root", "img_0", "chunk_0_7"]` extends its
parent's hierarchy `["Root"]` by TWO elements (the synthetic `img_0` label and
the `chunk_0_7` label), not by exactly one as claimed. -/
theorem C1_counterexample :
    ((c1P.parse c1Events).toOption.bind fun t => (t.nodes 1).map fun n =>
        (n.metadata.hierarchy, n.parentId, n.isLeaf))
      = some (["Root", "img_0", "chunk_0_7"], some 0, true) ∧
    ((c1P.parse c1Events).toOption.bind fun t => (t.nodes 0).map fun n =>
        n.metadata.hierarchy) = some ["Root"] ∧
    ["Root", "img_0", "chunk_0_7"] ≠ ["Root"] ++ ["img_0"] ∧
    ["Root", "img_0", "chunk_0_7"] = ["Root"] ++ ["img_0", "chunk_0_7"] := by
  refine ⟨by decide, by decide, by decide, by decide⟩

/-- C1 (amended): in every tree returned by `MarkdownParser::parse`, every
node whose parent is present in the tree has a hierarchy that equals the
parent's hierarchy plus one additional element (its title or `chunk_..`
label), or — for the table and image leaves, which receive both a synthetic
`table_..`/`img_..` label and a `chunk_..` label — plus two additional
elements. -/
theorem C1_theorem (p : MarkdownParser) (events : List MdEvent)
    (t : NodeTree) (h : p.parse events = .ok t)
    (id : NodeId) (n : Node) (pid : NodeId) (np : Node)
    (hn : t.nodes id = some n) (hp : n.parentId = some pid)
    (hnp : t.nodes pid = some np) :
    ∃ ext, n.metadata.hierarchy = np.metadata.hierarchy ++ ext ∧
      (ext.length = 1 ∨ (ext.length = 2 ∧ n.isLeaf = true)) :=
  (hierOk_parse p events t h).1 id n pid np hn hp hnp

theorem C1_witness :
    ∃ t n np, c1P.parse c1Events = .ok t ∧
      t.nodes 1 = some n ∧ n.parentId = some 0 ∧ t.nodes 0 = some np ∧
      ∃ ext, n.metadata.hierarchy = np.metadata.hierarchy ++ ext ∧
        (ext.length = 1 ∨ (ext.length = 2 ∧ n.isLeaf = true)) := by
  rcases hres : c1P.parse c1Events with e | t
  · have hnone : (c1P.parse c1Events).toOption = none := by rw [hres]; rfl
    have hsome : (c1P.parse c1Events).toOption.isSome = true := by decide
    rw [hnone] at hsome
    exact Bool.noConfusion hsome
  · have k1 := congrArg (fun r : Except String NodeTree =>
      match r with | .ok tr => tr.nodes 1 | .error _ => none) hres
    have k0 := congrArg (fun r : Except String NodeTree =>
      match r with | .ok tr => tr.nodes 0 | .error _ => none) hres
    simp only at k1 k0
    have h1 : t.nodes 1 = some c1Leaf := by
      rw [← k1]; decide
    have h0 : t.nodes 0 = some c1Root := by
      rw [← k0]; decide
    have hp1 : c1Leaf.parentId = some 0 := by decide
    exact ⟨t, c1Leaf, c1Root, rfl, h1, hp1, h0,
      C1_theorem c1P c1Events t hres 1 c1Leaf 0 c1Root h1 hp1 h0⟩



/-! ## The doubly linked sibling chain (C7)

`add_node` links each new child with the previous last child of its parent
(`Next` on the previous child, `Previous` on the new one).  `Built t ctr`
captures a tree built through `NodeTree::new` and successful `add_node`
calls, the way the program builds them: each added node is freshly
constructed (`new_intermediate` / `new_leaf`), so it carries a fresh uuid
(modelled by the counter `ctr`) and no `Previous`/`Next`/`Child`
relationships of its own. -/

/-- The `Next` link of a node id in the tree (`node.next_id()`). -/
def nextOf (t : NodeTree) (id : NodeId) : Option NodeId :=
  (t.nodes id).bind Node.nextId

/-- The `Previous` link of a node id in the tree (`node.prev_id()`). -/
def prevOf (t : NodeTree) (id : NodeId) : Option NodeId :=
  (t.nodes id).bind Node.prevId

/-- The doubly-linked-chain contract over a child list: each entry's
`Previous` is the preceding entry (`prev` before the first), each entry's
`Next` is the following entry (`none` after the last). -/
def chainOk (t : NodeTree) : Option NodeId → List NodeId → Bool
  | _, [] => true
  | prev, c :: rest =>
    (prevOf t c == prev) && (nextOf t c == rest.head?) &&
      chainOk t (some c) rest

/-- Walk `Next` links from a node id, with fuel. -/
def walkNext (t : NodeTree) : Nat → Option NodeId → List NodeId
  | 0, _ => []
  | _ + 1, none => []
  | fuel + 1, some i => i :: walkNext t fuel (nextOf t i)

/-- Walk `Previous` links from a node id, with fuel. -/
def walkPrev (t : NodeTree) : Nat → Option NodeId → List NodeId
  | 0, _ => []
  | _ + 1, none => []
  | fuel + 1, some i => i :: walkPrev t fuel (prevOf t i)

/-- A tree built through `NodeTree::new` on a fresh root and a sequence of
successful `add_node` calls on freshly constructed nodes. -/
inductive Built : NodeTree → Nat → Prop
  | base (i : NodeId) (d : String) (f : Option String) :
      Built (NodeTree.new (Node.newRoot i d f)) (i + 1)
  | step (t : NodeTree) (ctr : Nat) (n : Node) (t' : NodeTree) :
      Built t ctr → n.id = ctr →
      n.relationships.previous = [] → n.relationships.next = [] →
      n.relationships.child = [] →
      t.addNodeS n = (t', .ok ()) → Built t' (ctr + 1)

theorem walkNext_chain (t : NodeTree) :
    ∀ (cs : List NodeId) (prev : Option NodeId),
    chainOk t prev cs = true →
    ∀ k, walkNext t (cs.length + k) cs.head? = cs := by
  intro cs
  induction cs with
  | nil =>
    intro prev _ k
    cases k with
    | zero => rfl
    | succ k => rfl
  | cons c rest ih =>
    intro prev hch k
    simp only [chainOk, Bool.and_eq_true, beq_iff_eq] at hch
    obtain ⟨⟨hprev, hnext⟩, hrest⟩ := hch
    have hl : (c :: rest).length + k = (rest.length + k) + 1 := by
      simp only [List.length_cons]
      omega
    rw [hl, List.head?_cons, walkNext, hnext, ih (some c) hrest k]

theorem walkPrev_none (t : NodeTree) (k : Nat) : walkPrev t k none = [] := by
  cases k with
  | zero => rfl
  | succ k => rfl

theorem walkPrev_chain (t : NodeTree) :
    ∀ (cs : List NodeId) (prev : Option NodeId),
    chainOk t prev cs = true → cs ≠ [] →
    ∀ k, walkPrev t (cs.length + k) cs.getLast?
      = cs.reverse ++ walkPrev t k prev := by
  intro cs
  induction cs with
  | nil =>
    intro prev _ hne
    exact absurd rfl hne
  | cons c rest ih =>
    intro prev hch _ k
    simp only [chainOk, Bool.and_eq_true, beq_iff_eq] at hch
    obtain ⟨⟨hprev, hnext⟩, hrest⟩ := hch
    cases rest with
    | nil =>
      have h1 : ([c] : List NodeId).length + k = k + 1 := by
        simp only [List.length_cons, List.length_nil]
        omega
      rw [h1, show ([c] : List NodeId).getLast? = some c from rfl,
        walkPrev, hprev]
      rfl
    | cons r rs =>
      have h1 : (c :: r :: rs).length + k = ((r :: rs).length) + (k + 1) := by
        simp only [List.length_cons]
        omega
      have h2 : (c :: r :: rs).getLast? = (r :: rs).getLast? := by
        simp [List.getLast?_cons_cons]
      rw [h1, h2, ih (some c) hrest (List.cons_ne_nil r rs) (k + 1)]
      simp only [walkPrev, hprev, List.reverse_cons, List.append_assoc,
        List.singleton_append]
      rfl

theorem walkPrev_chain_top (t : NodeTree) (cs : List NodeId)
    (h : chainOk t none cs = true) (k : Nat) :
    walkPrev t (cs.length + k) cs.getLast? = cs.reverse := by
  cases cs with
  | nil =>
    simp only [List.length_nil, List.getLast?_nil, List.reverse_nil,
      Nat.zero_add]
    exact walkPrev_none t k
  | cons c rest =>
    rw [walkPrev_chain t (c :: rest) none h (List.cons_ne_nil c rest) k,
      walkPrev_none, List.append_nil]

theorem chainOk_get (t : NodeTree) :
    ∀ (cs : List NodeId) (prev : Option NodeId),
    chainOk t prev cs = true →
    ∀ i c c', cs.get? i = some c → cs.get? (i + 1) = some c' →
    nextOf t c = some c' ∧ prevOf t c' = some c := by
  intro cs
  induction cs with
  | nil => intro prev _ i c c' hc; cases hc
  | cons c0 rest ih =>
    intro prev hch i c c' hc hc'
    simp only [chainOk, Bool.and_eq_true, beq_iff_eq] at hch
    obtain ⟨⟨hprev, hnext⟩, hrest⟩ := hch
    cases i with
    | zero =>
      obtain rfl := Option.some.inj hc
      simp only [List.get?] at hc'
      cases rest with
      | nil => cases hc'
      | cons r rs =>
        simp only [List.get?] at hc'
        obtain rfl := Option.some.inj hc'
        refine ⟨by rw [hnext]; rfl, ?_⟩
        simp only [chainOk, Bool.and_eq_true, beq_iff_eq] at hrest
        exact hrest.1.1
    | succ i =>
      simp only [List.get?] at hc hc'
      exact ih (some c0) hrest i c c' hc hc'

theorem chainOk_congr (t t' : NodeTree) :
    ∀ (cs : List NodeId) (prev : Option NodeId),
    (∀ c ∈ cs, prevOf t' c = prevOf t c ∧ nextOf t' c = nextOf t c) →
    chainOk t prev cs = chainOk t' prev cs := by
  intro cs
  induction cs with
  | nil => intro prev _; rfl
  | cons c rest ih =>
    intro prev hsame
    obtain ⟨hp, hn⟩ := hsame c (List.mem_cons_self c rest)
    simp only [chainOk, hp, hn]
    rw [ih (some c) fun d hd => hsame d (List.mem_cons_of_mem c hd)]

theorem chainOk_snoc (t t' : NodeTree) (x : NodeId) :
    ∀ (cs : List NodeId) (prev : Option NodeId),
    chainOk t prev cs = true →
    (∀ c ∈ cs, prevOf t' c = prevOf t c) →
    (∀ c ∈ cs.dropLast, nextOf t' c = nextOf t c) →
    (∀ l, cs.getLast? = some l → nextOf t' l = some x ∧ prevOf t' x = some l) →
    (cs = [] → prevOf t' x = prev) →
    nextOf t' x = none →
    chainOk t' prev (cs ++ [x]) = true := by
  intro cs
  induction cs with
  | nil =>
    intro prev _ _ _ _ h5 h6
    simp only [List.nil_append, chainOk, Bool.and_eq_true, beq_iff_eq]
    refine ⟨⟨h5 rfl, ?_⟩, trivial⟩
    exact h6
  | cons c rest ih =>
    intro prev hch h2 h3 h4 _ h6
    simp only [chainOk, Bool.and_eq_true, beq_iff_eq] at hch
    obtain ⟨⟨hprev, hnext⟩, hrest⟩ := hch
    simp only [List.cons_append, chainOk, Bool.and_eq_true, beq_iff_eq]
    refine ⟨⟨?_, ?_⟩, ?_⟩
    · rw [h2 c (List.mem_cons_self c rest), hprev]
    · cases rest with
      | nil =>
        have := h4 c (by rfl)
        simp only [List.nil_append, List.head?]
        exact this.1
      | cons r rs =>
        have hc : c ∈ (c :: r :: rs).dropLast := by
          rw [List.dropLast_cons₂]
          exact List.mem_cons_self c _
        rw [h3 c hc, hnext]
        rfl
    · refine ih (some c) hrest (fun d hd => h2 d (List.mem_cons_of_mem c hd))
        (fun d hd => ?_) (fun l hl => ?_) (fun hemp => ?_) h6
      · cases rest with
        | nil => cases hd
        | cons r rs =>
          refine h3 d ?_
          rw [List.dropLast_cons₂]
          exact List.mem_cons_of_mem c hd
      · refine h4 l ?_
        cases rest with
        | nil => cases hl
        | cons r rs => rw [List.getLast?_cons_cons]; exact hl
      · subst hemp
        exact (h4 c rfl).2

theorem pushChild_children (c : NodeId) (n : Node) :
    (Node.pushChild c n).children = n.children ++ [c] := by
  cases n <;> rfl

theorem pushChild_prevId (c : NodeId) (n : Node) :
    (Node.pushChild c n).prevId = n.prevId := by
  cases n <;> rfl

theorem pushChild_nextId (c : NodeId) (n : Node) :
    (Node.pushChild c n).nextId = n.nextId := by
  cases n <;> rfl

theorem setNext_nextId (x : NodeId) (n : Node) :
    (Node.setNext (some x) n).nextId = some x := by
  cases n <;> rfl

theorem setNext_prevId (o : Option NodeId) (n : Node) :
    (Node.setNext o n).prevId = n.prevId := by
  cases n <;> rfl

theorem setNext_children (o : Option NodeId) (n : Node) :
    (Node.setNext o n).children = n.children := by
  cases n <;> rfl

theorem setPrevious_prevId (x : NodeId) (n : Node) :
    (Node.setPrevious (some x) n).prevId = some x := by
  cases n <;> rfl

theorem setPrevious_nextId (o : Option NodeId) (n : Node) :
    (Node.setPrevious o n).nextId = n.nextId := by
  cases n <;> rfl

theorem setPrevious_children (o : Option NodeId) (n : Node) :
    (Node.setPrevious o n).children = n.children := by
  cases n <;> rfl

theorem head?_reverse (l : List NodeId) : l.reverse.head? = l.getLast? := by
  induction l with
  | nil => rfl
  | cons a as ih =>
    rw [List.reverse_cons]
    cases as with
    | nil => rfl
    | cons b bs =>
      rw [List.getLast?_cons_cons, ← ih]
      cases hcb : (b :: bs).reverse with
      | nil => exact absurd hcb (by simp)
      | cons x xs => simp [hcb]

theorem getLast?_none (l : List NodeId) (h : l.getLast? = none) : l = [] := by
  cases l with
  | nil => rfl
  | cons a as =>
    rw [← head?_reverse] at h
    rcases hr : (a :: as).reverse with _ | ⟨x, xs⟩
    · exact absurd hr (by simp)
    · rw [hr] at h
      cases h

theorem getLast?_memb (l : List NodeId) (x : NodeId)
    (h : l.getLast? = some x) : x ∈ l := by
  obtain ⟨hne, heq⟩ := List.mem_getLast?_eq_getLast (Option.mem_def.mpr h)
  rw [heq]
  exact List.getLast_mem hne

/-- In `cs ++ [c]` reversed, the element at index 1
(`children().iter().rev().nth(1)` after the push) is the old last child. -/
theorem secondLast (cs : List NodeId) (c : NodeId) :
    (cs ++ [c]).reverse.get? 1 = cs.getLast? := by
  rw [List.reverse_append, List.reverse_singleton, List.singleton_append]
  have h0 : ∀ (l : List NodeId), (c :: l).get? 1 = l.head? := by
    intro l
    cases l <;> rfl
  rw [h0, head?_reverse]

/-- Full pointwise characterization of a successful `add_node` when the
parent already had children: the new child is inserted with its `Previous`
set to the old last child `l`, `l` gets `Next` pointing at the new child,
the parent's child list is extended, and everything else is untouched. -/
theorem addNodeS_char (t : NodeTree) (n : Node) (pid : NodeId)
    (P lnode : Node) (l : NodeId)
    (hp : n.parentId = some pid) (hP : t.nodes pid = some P)
    (hl : P.children.getLast? = some l) (hlp : l ≠ pid)
    (hln : t.nodes l = some lnode) (x : NodeId) :
    (t.addNodeS n).1.nodes x
      = if x = n.id then some (Node.setPrevious (some l) n)
        else if x = l then some (Node.setNext (some n.id) lnode)
        else if x = pid then some (Node.pushChild n.id P)
        else t.nodes x := by
  unfold NodeTree.addNodeS
  simp only [hp, hP]
  have hgl : (Node.pushChild n.id P).children.reverse.get? 1 = some l := by
    rw [pushChild_children, secondLast, hl]
  simp only [hgl]
  have hkey : (Node.setPrevious (some l) n).id = n.id :=
    mapRelationships_id _ n
  by_cases hx : x = n.id
  · simp only [NodeTree.mapInsert, hkey, if_pos hx]
  · simp only [NodeTree.mapInsert, NodeTree.mapAdjust, hkey, if_neg hx]
    by_cases hxl : x = l
    · rw [if_pos hxl, if_pos hxl, if_neg hlp, hln]
      rfl
    · rw [if_neg hxl, if_neg hxl]

/-- Pointwise characterization of a successful `add_node` when the parent
had no children: no `Previous`/`Next` link is created. -/
theorem addNodeS_char0 (t : NodeTree) (n : Node) (pid : NodeId) (P : Node)
    (hp : n.parentId = some pid) (hP : t.nodes pid = some P)
    (hl : P.children = []) (x : NodeId) :
    (t.addNodeS n).1.nodes x
      = if x = n.id then some n
        else if x = pid then some (Node.pushChild n.id P)
        else t.nodes x := by
  unfold NodeTree.addNodeS
  simp only [hp, hP]
  have hgl : (Node.pushChild n.id P).children.reverse.get? 1 = none := by
    rw [pushChild_children, hl]
    rfl
  simp only [hgl]
  by_cases hx : x = n.id
  · simp only [NodeTree.mapInsert, if_pos hx]
  · simp only [NodeTree.mapInsert, if_neg hx]

/-- The sibling-chain invariant of a built tree: ids are below the fresh
counter, every child id resolves and is larger than its parent's id, child
lists are strictly increasing, no id sits in two child lists, and every
child list is a consistent doubly linked chain. -/
def TreeInv (t : NodeTree) (ctr : Nat) : Prop :=
  FreshOk t ctr ∧
  (∀ id P c, t.nodes id = some P → c ∈ P.children →
    (∃ cn, t.nodes c = some cn) ∧ id < c) ∧
  (∀ id P, t.nodes id = some P → List.Chain' (· < ·) P.children) ∧
  (∀ id₁ P₁ id₂ P₂ c, t.nodes id₁ = some P₁ → t.nodes id₂ = some P₂ →
    c ∈ P₁.children → c ∈ P₂.children → id₁ = id₂) ∧
  (∀ id P, t.nodes id = some P → chainOk t none P.children = true)

theorem treeInv_addNode (t : NodeTree) (ctr : Nat) (n : Node) (t' : NodeTree)
    (hinv : TreeInv t ctr) (hid : n.id = ctr)
    (hprev : n.relationships.previous = [])
    (hnext : n.relationships.next = [])
    (hchild : n.relationships.child = [])
    (heq : t.addNodeS n = (t', .ok ())) :
    TreeInv t' (ctr + 1) := by
  have hok : (t.addNodeS n).2 = .ok () := by rw [heq]
  have ht' : t' = (t.addNodeS n).1 := by rw [heq]
  subst ht'
  obtain ⟨hfr, hmem, hchn, huniq, hchain⟩ := hinv
  obtain ⟨pid, P, hp, hP⟩ := addNodeS_ok_parent t n hok
  have hpidlt : pid < ctr := hfr pid P hP
  have holdlt : ∀ id Q c, t.nodes id = some Q → c ∈ Q.children → c < ctr := by
    intro id Q c hQ hc
    obtain ⟨⟨cn, hcn⟩, _⟩ := hmem id Q c hQ hc
    exact hfr c cn hcn
  rcases hgl : P.children.getLast? with _ | l
  · -- the parent had no children yet: no prev/next link is created
    have hcs : P.children = [] := getLast?_none _ hgl
    have hchar := addNodeS_char0 t n pid P hp hP hcs
    have hpres : ∀ c cn, t.nodes c = some cn →
        ∃ m, (t.addNodeS n).1.nodes c = some m := by
      intro c cn hcn
      rw [hchar c]
      split_ifs
      · exact ⟨_, rfl⟩
      · exact ⟨_, rfl⟩
      · exact ⟨cn, hcn⟩
    have hnew : (t.addNodeS n).1.nodes n.id = some n := by
      rw [hchar n.id, if_pos rfl]
    have hsame : ∀ c, c ≠ n.id →
        prevOf (t.addNodeS n).1 c = prevOf t c ∧
        nextOf (t.addNodeS n).1 c = nextOf t c := by
      intro c hcn
      simp only [prevOf, nextOf]
      rw [hchar c, if_neg hcn]
      by_cases hcp : c = pid
      · rw [if_pos hcp, hcp, hP]
        exact ⟨by simp [pushChild_prevId], by simp [pushChild_nextId]⟩
      · rw [if_neg hcp]
        exact ⟨rfl, rfl⟩
    refine ⟨?_, ?_, ?_, ?_, ?_⟩
    · intro x m hm
      rw [hchar x] at hm
      split_ifs at hm with h1 h2
      · rw [h1, hid]
        exact Nat.lt_succ_self ctr
      · rw [h2]
        exact Nat.lt_succ_of_lt hpidlt
      · exact Nat.lt_succ_of_lt (hfr x m hm)
    · intro id Q c hQ hc
      rw [hchar id] at hQ
      split_ifs at hQ with h1 h2
      · obtain rfl := Option.some.inj hQ
        rw [Node.children, hchild] at hc
        cases hc
      · obtain rfl := Option.some.inj hQ
        rw [pushChild_children, hcs, List.nil_append] at hc
        obtain rfl := List.mem_singleton.1 hc
        refine ⟨⟨n, hnew⟩, ?_⟩
        rw [h2, hid]
        exact hpidlt
      · obtain ⟨⟨cn, hcn⟩, hlt⟩ := hmem id Q c hQ hc
        exact ⟨hpres c cn hcn, hlt⟩
    · intro id Q hQ
      rw [hchar id] at hQ
      split_ifs at hQ with h1 h2
      · obtain rfl := Option.some.inj hQ
        rw [Node.children, hchild]
        exact List.chain'_nil
      · obtain rfl := Option.some.inj hQ
        rw [pushChild_children, hcs, List.nil_append]
        exact List.chain'_singleton _
      · exact hchn id Q hQ
    · intro id1 Q1 id2 Q2 c h1 h2 hc1 hc2
      have hdec : ∀ id Q c, (t.addNodeS n).1.nodes id = some Q →
          c ∈ Q.children →
          (c = n.id ∧ id = pid) ∨
            (∃ Qo, t.nodes id = some Qo ∧ c ∈ Qo.children) := by
        intro id Q c hQ hc
        rw [hchar id] at hQ
        split_ifs at hQ with hh1 hh2
        · obtain rfl := Option.some.inj hQ
          rw [Node.children, hchild] at hc
          cases hc
        · obtain rfl := Option.some.inj hQ
          rw [pushChild_children, hcs, List.nil_append] at hc
          exact Or.inl ⟨List.mem_singleton.1 hc, hh2⟩
        · exact Or.inr ⟨Q, hQ, hc⟩
      rcases hdec id1 Q1 c h1 hc1 with ⟨hcn1, hp1⟩ | ⟨Qo1, ho1, hco1⟩ <;>
        rcases hdec id2 Q2 c h2 hc2 with ⟨hcn2, hp2⟩ | ⟨Qo2, ho2, hco2⟩
      · rw [hp1, hp2]
      · exfalso
        have := holdlt id2 Qo2 c ho2 hco2
        rw [hcn1, hid] at this
        exact lt_irrefl ctr this
      · exfalso
        have := holdlt id1 Qo1 c ho1 hco1
        rw [hcn2, hid] at this
        exact lt_irrefl ctr this
      · exact huniq id1 Qo1 id2 Qo2 c ho1 ho2 hco1 hco2
    · intro id Q hQ
      rw [hchar id] at hQ
      split_ifs at hQ with h1 h2
      · obtain rfl := Option.some.inj hQ
        rw [Node.children, hchild]
        rfl
      · obtain rfl := Option.some.inj hQ
        rw [pushChild_children, hcs, List.nil_append]
        have hpn : prevOf (t.addNodeS n).1 n.id = none := by
          simp only [prevOf]
          rw [hnew]
          simp only [Option.some_bind]
          rw [Node.prevId, hprev]
          rfl
        have hnn : nextOf (t.addNodeS n).1 n.id = none := by
          simp only [nextOf]
          rw [hnew]
          simp only [Option.some_bind]
          rw [Node.nextId, hnext]
          rfl
        simp [chainOk, hpn, hnn]
      · have hcond : ∀ c ∈ Q.children,
            prevOf (t.addNodeS n).1 c = prevOf t c ∧
            nextOf (t.addNodeS n).1 c = nextOf t c := by
          intro c hc
          refine hsame c ?_
          rw [hid]
          exact Nat.ne_of_lt (holdlt id Q c hQ hc)
        rw [← chainOk_congr t (t.addNodeS n).1 Q.children none hcond]
        exact hchain id Q hQ
  · -- the parent had children: the old last child `l` is linked in
    have hlmem : l ∈ P.children := getLast?_memb _ _ hgl
    have hpl : pid < l := (hmem pid P l hP hlmem).2
    obtain ⟨⟨lnode, hln⟩, _⟩ := hmem pid P l hP hlmem
    have hllt : l < ctr := hfr l lnode hln
    have hlnid : l ≠ n.id := by
      rw [hid]
      exact Nat.ne_of_lt hllt
    have hchar := addNodeS_char t n pid P lnode l hp hP hgl (ne_of_gt hpl) hln
    have hpres : ∀ c cn, t.nodes c = some cn →
        ∃ m, (t.addNodeS n).1.nodes c = some m := by
      intro c cn hcn
      rw [hchar c]
      split_ifs
      · exact ⟨_, rfl⟩
      · exact ⟨_, rfl⟩
      · exact ⟨_, rfl⟩
      · exact ⟨cn, hcn⟩
    have hnew : (t.addNodeS n).1.nodes n.id
        = some (Node.setPrevious (some l) n) := by
      rw [hchar n.id, if_pos rfl]
    have hsame : ∀ c, c ≠ l → c ≠ n.id →
        prevOf (t.addNodeS n).1 c = prevOf t c ∧
        nextOf (t.addNodeS n).1 c = nextOf t c := by
      intro c hcl hcn
      simp only [prevOf, nextOf]
      rw [hchar c, if_neg hcn, if_neg hcl]
      by_cases hcp : c = pid
      · rw [if_pos hcp, hcp, hP]
        exact ⟨by simp [pushChild_prevId], by simp [pushChild_nextId]⟩
      · rw [if_neg hcp]
        exact ⟨rfl, rfl⟩
    have hprevl : prevOf (t.addNodeS n).1 l = prevOf t l := by
      simp only [prevOf]
      rw [hchar l, if_neg hlnid, if_pos rfl, hln]
      simp [setNext_prevId]
    have hnextl : nextOf (t.addNodeS n).1 l = some n.id := by
      simp only [nextOf]
      rw [hchar l, if_neg hlnid, if_pos rfl]
      simp [setNext_nextId]
    have hprevn : prevOf (t.addNodeS n).1 n.id = some l := by
      simp only [prevOf]
      rw [hnew]
      simp only [Option.some_bind]
      exact setPrevious_prevId l n
    have hnextn : nextOf (t.addNodeS n).1 n.id = none := by
      simp only [nextOf]
      rw [hnew]
      simp only [Option.some_bind]
      rw [setPrevious_nextId, Node.nextId, hnext]
      rfl
    refine ⟨?_, ?_, ?_, ?_, ?_⟩
    · intro x m hm
      rw [hchar x] at hm
      split_ifs at hm with h1 h2 h3
      · rw [h1, hid]
        exact Nat.lt_succ_self ctr
      · rw [h2]
        exact Nat.lt_succ_of_lt hllt
      · rw [h3]
        exact Nat.lt_succ_of_lt hpidlt
      · exact Nat.lt_succ_of_lt (hfr x m hm)
    · intro id Q c hQ hc
      rw [hchar id] at hQ
      split_ifs at hQ with h1 h2 h3
      · obtain rfl := Option.some.inj hQ
        rw [setPrevious_children, Node.children, hchild] at hc
        cases hc
      · obtain rfl := Option.some.inj hQ
        rw [setNext_children] at hc
        obtain ⟨⟨cn, hcn⟩, hlt⟩ := hmem l lnode c hln hc
        refine ⟨hpres c cn hcn, ?_⟩
        rw [h2]
        exact hlt
      · obtain rfl := Option.some.inj hQ
        rw [pushChild_children] at hc
        rcases List.mem_append.1 hc with hc1 | hc2
        · obtain ⟨⟨cn, hcn⟩, hlt⟩ := hmem pid P c hP hc1
          refine ⟨hpres c cn hcn, ?_⟩
          rw [h3]
          exact hlt
        · obtain rfl := List.mem_singleton.1 hc2
          refine ⟨⟨_, hnew⟩, ?_⟩
          rw [h3, hid]
          exact hpidlt
      · obtain ⟨⟨cn, hcn⟩, hlt⟩ := hmem id Q c hQ hc
        exact ⟨hpres c cn hcn, hlt⟩
    · intro id Q hQ
      rw [hchar id] at hQ
      split_ifs at hQ with h1 h2 h3
      · obtain rfl := Option.some.inj hQ
        rw [setPrevious_children, Node.children, hchild]
        exact List.chain'_nil
      · obtain rfl := Option.some.inj hQ
        rw [setNext_children]
        exact hchn l lnode hln
      · obtain rfl := Option.some.inj hQ
        rw [pushChild_children]
        refine List.chain'_append.2
          ⟨hchn pid P hP, List.chain'_singleton _, ?_⟩
        intro x hx y hy
        have hxl : x = l := by
          rw [Option.mem_def, hgl] at hx
          exact (Option.some.inj hx).symm
        have hyn : y = n.id := by
          rw [Option.mem_def] at hy
          exact (Option.some.inj hy).symm
        rw [hxl, hyn, hid]
        exact hllt
      · exact hchn id Q hQ
    · intro id1 Q1 id2 Q2 c h1 h2 hc1 hc2
      have hdec : ∀ id Q c, (t.addNodeS n).1.nodes id = some Q →
          c ∈ Q.children →
          (c = n.id ∧ id = pid) ∨
            (∃ Qo, t.nodes id = some Qo ∧ c ∈ Qo.children) := by
        intro id Q c hQ hc
        rw [hchar id] at hQ
        split_ifs at hQ with hh1 hh2 hh3
        · obtain rfl := Option.some.inj hQ
          rw [setPrevious_children, Node.children, hchild] at hc
          cases hc
        · obtain rfl := Option.some.inj hQ
          rw [setNext_children] at hc
          refine Or.inr ⟨lnode, ?_, hc⟩
          rw [hh2]
          exact hln
        · obtain rfl := Option.some.inj hQ
          rw [pushChild_children] at hc
          rcases List.mem_append.1 hc with hcc1 | hcc2
          · refine Or.inr ⟨P, ?_, hcc1⟩
            rw [hh3]
            exact hP
          · exact Or.inl ⟨List.mem_singleton.1 hcc2, hh3⟩
        · exact Or.inr ⟨Q, hQ, hc⟩
      rcases hdec id1 Q1 c h1 hc1 with ⟨hcn1, hp1⟩ | ⟨Qo1, ho1, hco1⟩ <;>
        rcases hdec id2 Q2 c h2 hc2 with ⟨hcn2, hp2⟩ | ⟨Qo2, ho2, hco2⟩
      · rw [hp1, hp2]
      · exfalso
        have := holdlt id2 Qo2 c ho2 hco2
        rw [hcn1, hid] at this
        exact lt_irrefl ctr this
      · exfalso
        have := holdlt id1 Qo1 c ho1 hco1
        rw [hcn2, hid] at this
        exact lt_irrefl ctr this
      · exact huniq id1 Qo1 id2 Qo2 c ho1 ho2 hco1 hco2
    · intro id Q hQ
      rw [hchar id] at hQ
      split_ifs at hQ with h1 h2 h3
      · obtain rfl := Option.some.inj hQ
        rw [setPrevious_children, Node.children, hchild]
        rfl
      · obtain rfl := Option.some.inj hQ
        rw [setNext_children]
        have hcond : ∀ c ∈ lnode.children,
            prevOf (t.addNodeS n).1 c = prevOf t c ∧
            nextOf (t.addNodeS n).1 c = nextOf t c := by
          intro c hc
          have hlt := (hmem l lnode c hln hc).2
          refine hsame c (ne_of_gt hlt) ?_
          rw [hid]
          exact Nat.ne_of_lt (holdlt l lnode c hln hc)
        rw [← chainOk_congr t (t.addNodeS n).1 lnode.children none hcond]
        exact hchain l lnode hln
      · obtain rfl := Option.some.inj hQ
        rw [pushChild_children]
        refine chainOk_snoc t (t.addNodeS n).1 n.id P.children none
          (hchain pid P hP) ?_ ?_ ?_ ?_ hnextn
        · intro c hc
          by_cases hcl : c = l
          · rw [hcl, hprevl]
          · refine (hsame c hcl ?_).1
            rw [hid]
            exact Nat.ne_of_lt (holdlt pid P c hP hc)
        · intro c hc
          have hpw : List.Pairwise (· < ·) P.children :=
            List.chain'_iff_pairwise.1 (hchn pid P hP)
          have hsplit := List.dropLast_append_getLast? l
            (Option.mem_def.mpr hgl)
          have hcl : c < l := by
            rw [← hsplit] at hpw
            exact (List.pairwise_append.1 hpw).2.2 c hc l
              (List.mem_singleton_self l)
          have hcmem : c ∈ P.children := by
            rw [← hsplit]
            exact List.mem_append_left _ hc
          refine (hsame c (Nat.ne_of_lt hcl) ?_).2
          rw [hid]
          exact Nat.ne_of_lt (holdlt pid P c hP hcmem)
        · intro l' hl'
          rw [hgl] at hl'
          obtain rfl := Option.some.inj hl'
          exact ⟨hnextl, hprevn⟩
        · intro hemp
          rw [hemp] at hgl
          cases hgl
      · have hcond : ∀ c ∈ Q.children,
            prevOf (t.addNodeS n).1 c = prevOf t c ∧
            nextOf (t.addNodeS n).1 c = nextOf t c := by
          intro c hc
          have hcl : c ≠ l := by
            intro hceq
            refine h3 (huniq id Q pid P c hQ hP hc ?_)
            rw [hceq]
            exact hlmem
          refine hsame c hcl ?_
          rw [hid]
          exact Nat.ne_of_lt (holdlt id Q c hQ hc)
        rw [← chainOk_congr t (t.addNodeS n).1 Q.children none hcond]
        exact hchain id Q hQ

theorem new_nodes (i : NodeId) (d : String) (f : Option String)
    (x : NodeId) :
    (NodeTree.new (Node.newRoot i d f)).nodes x
      = if x = i then some (Node.newRoot i d f) else none := rfl

theorem treeInv_base (i : NodeId) (d : String) (f : Option String) :
    TreeInv (NodeTree.new (Node.newRoot i d f)) (i + 1) := by
  have hch : (Node.newRoot i d f).children = [] := rfl
  refine ⟨?_, ?_, ?_, ?_, ?_⟩
  · intro x m hm
    rw [new_nodes] at hm
    split_ifs at hm with h1
    rw [h1]
    exact Nat.lt_succ_self i
  · intro id P c hP hc
    rw [new_nodes] at hP
    split_ifs at hP with h1
    obtain rfl := Option.some.inj hP
    rw [hch] at hc
    cases hc
  · intro id P hP
    rw [new_nodes] at hP
    split_ifs at hP with h1
    obtain rfl := Option.some.inj hP
    rw [hch]
    exact List.chain'_nil
  · intro id1 P1 id2 P2 c h1 h2 hc1 hc2
    rw [new_nodes] at h1 h2
    split_ifs at h1 h2 with hh1 hh2
    rw [hh1, hh2]
  · intro id P hP
    rw [new_nodes] at hP
    split_ifs at hP with h1
    obtain rfl := Option.some.inj hP
    rw [hch]
    rfl

theorem built_inv (t : NodeTree) (ctr : Nat) (hb : Built t ctr) :
    TreeInv t ctr := by
  induction hb with
  | base i d f => exact treeInv_base i d f
  | step t ctr n t' hb hid hprev hnext hchild heq ih =>
    exact treeInv_addNode t ctr n t' ih hid hprev hnext hchild heq

/-- C7: in every tree built through `NodeTree::new` and successful
`add_node` calls on freshly constructed nodes, every parent's child list is
insertion-ordered and doubly linked: consecutive entries satisfy the
`Next`/`Previous` chain contract (index i's `Next` is index i+1's id, with
the reciprocal `Previous`), walking `Next` links from the first child lists
all N children in insertion order exactly once, and walking `Previous`
links from the last child lists them in reverse order. -/
theorem C7_theorem (t : NodeTree) (ctr : Nat) (hb : Built t ctr)
    (pid : NodeId) (P : Node) (hP : t.nodes pid = some P) :
    chainOk t none P.children = true ∧
    (∀ i c c', P.children.get? i = some c →
      P.children.get? (i + 1) = some c' →
      nextOf t c = some c' ∧ prevOf t c' = some c) ∧
    (∀ k, walkNext t (P.children.length + k) P.children.head?
      = P.children) ∧
    (∀ k, walkPrev t (P.children.length + k) P.children.getLast?
      = P.children.reverse) := by
  have hch := (built_inv t ctr hb).2.2.2.2 pid P hP
  exact ⟨hch,
    fun i c c' h1 h2 => chainOk_get t P.children none hch i c c' h1 h2,
    fun k => walkNext_chain t P.children none hch k,
    fun k => walkPrev_chain_top t P.children hch k⟩

def c7T0 : NodeTree := NodeTree.new (Node.newRoot 0 "d" none)

def c7N1 : Node := Node.newIntermediate 1 0 (some "A") ["Root", "A"] "d"

def c7N2 : Node := Node.newIntermediate 2 0 (some "B") ["Root", "B"] "d"

def c7N3 : Node :=
  Node.newLeaf 3 0 "x" 1 0 ["Root"] "d" none none none none

def c7T1 : NodeTree := (c7T0.addNodeS c7N1).1

def c7T2 : NodeTree := (c7T1.addNodeS c7N2).1

def c7T3 : NodeTree := (c7T2.addNodeS c7N3).1

theorem C7_witness :
    ∃ P, c7T3.nodes 0 = some P ∧ P.children = [1, 2, 3] ∧
      chainOk c7T3 none P.children = true ∧
      walkNext c7T3 (P.children.length + 0) P.children.head? = P.children ∧
      walkPrev c7T3 (P.children.length + 0) P.children.getLast?
        = P.children.reverse := by
  have hb : Built c7T3 4 :=
    Built.step c7T2 3 c7N3 c7T3
      (Built.step c7T1 2 c7N2 c7T2
        (Built.step c7T0 1 c7N1 c7T1 (Built.base 0 "d" none)
          rfl rfl rfl rfl rfl)
        rfl rfl rfl rfl rfl)
      rfl rfl rfl rfl rfl
  rcases hx : c7T3.nodes 0 with _ | P
  · have hs : (c7T3.nodes 0).isSome = true := by decide
    rw [hx] at hs
    exact Bool.noConfusion hs
  · have hch : P.children = [1, 2, 3] := by
      have hc : (c7T3.nodes 0).map Node.children = some [1, 2, 3] := by
        decide
      rw [hx] at hc
      exact Option.some.inj hc
    obtain ⟨h1, _, h3, h4⟩ := C7_theorem c7T3 4 hb 0 P hx
    exact ⟨P, rfl, hch, h1, h3 0, h4 0⟩


/-! ## Claims: the markdown tree builder scenario (C8) -/

/-- The parser of the C8 scenario: `document_id = "d1"`, no file name. -/
def mdD1 : MarkdownParser := { document_id := "d1", file_name := none }

/-- Modelled from the spec: the `pulldown_cmark` event stream for the scenario
input `"# T\n## S\npara text"` (the markdown front end is the external
`pulldown_cmark` crate, not code of this repository): an H1 heading with text
`T`, an H2 heading with text `S`, and a paragraph with text `para text`. -/
def c8Events : List MdEvent :=
  [.startHeading 1, .text "T", .endHeading,
   .startHeading 2, .text "S", .endHeading,
   .otherStart, .text "para text", .endParagraph]

/-- C8: parsing `"# T\n## S\npara text"` with document id `"d1"` yields
Root(d1) with a single child Intermediate `T`, which has a single child
Intermediate `S`, which has a single child Leaf with text `"para text"` and
hierarchy `["Root", "T", "S", "chunk_0_9"]` — and no further nodes. -/
theorem C8_theorem :
    ((mdD1.parse c8Events).toOption.map fun t : NodeTree =>
      (t.nodes 0).map fun n =>
        (n.metadata.document_id, n.metadata.node_type, n.children,
         n.metadata.hierarchy))
      = some (some ("d1", .root, [1], ["Root"])) ∧
    ((mdD1.parse c8Events).toOption.map fun t : NodeTree =>
      (t.nodes 1).map fun n =>
        (n.title, n.metadata.node_type, n.children, n.parentId))
      = some (some (some "T", .intermediate, [2], some 0)) ∧
    ((mdD1.parse c8Events).toOption.map fun t : NodeTree =>
      (t.nodes 2).map fun n =>
        (n.title, n.metadata.node_type, n.children, n.parentId))
      = some (some (some "S", .intermediate, [3], some 1)) ∧
    ((mdD1.parse c8Events).toOption.map fun t : NodeTree =>
      (t.nodes 3).map fun n =>
        (n.asLeaf.map LeafNode.text, n.metadata.node_type, n.parentId))
      = some (some (some "para text", .leaf, some 2)) ∧
    ((mdD1.parse c8Events).toOption.map fun t : NodeTree =>
      (t.nodes 3).map fun n => (n.metadata.hierarchy, n.children))
      = some (some (["Root", "T", "S", "chunk_0_9"], [])) ∧
    ((mdD1.parse c8Events).toOption.map fun t : NodeTree =>
      (t.nodes 4).isSome) = some false :=
  ⟨by decide, by decide, by decide, by decide, by decide, by decide⟩

/-! ## Claims: the recursive chunker panic (C3) and ordering contract (C2) -/

/-- A chunker whose (modelled) tokenizer is the character count, with a zero
token budget, so that `hard_split` is reached on any nonempty sentence. -/
def rcPanic : RecursiveChunker :=
  { max_tokens := 0, model := "m", tc := String.length }

/-- C3: contrary to the claim, `hard_split` is not panic-free — on the text
`"aaa"` (no good-break character, fewer than 300 chars) the forced cut sets
`end = i + 300 = 300 > chars.len() = 3` and `&chars[0..300]` is out of bounds
(the embedding returns `none` for the panic); the result is `none` for every
fuel (the first loop iteration already panics), and the panic is reachable
from `RecursiveChunker::chunk`. -/
theorem C3_theorem :
    (∀ fuel, RecursiveChunker.hardSplitAux rcPanic 1 ['a', 'a', 'a'] (fuel + 1)
      0 0 0 = none) ∧
    rcPanic.hardSplit "aaa" 1 0 0 = none ∧
    rcPanic.chunk [(1, "aaa")] = none := by
  refine ⟨fun fuel => ?_, by decide, by decide⟩
  have hw : RecursiveChunker.walkBack ['a', 'a', 'a'] 0 3 = 0 := by decide
  rw [RecursiveChunker.hardSplitAux]
  simp [hw]

/-- A chunker with a 500-token budget over the character-count tokenizer. -/
def rcC2 : RecursiveChunker :=
  { max_tokens := 500, model := "m", tc := String.length }

/-- A single 1002-character sentence whose comma good-breaks sit at the ends
of the two 500-character `hard_split` windows, so `hard_split` emits three
chunks (500, 500 and the tail `"a,"`), followed by the paragraph `"b"`. -/
def c2Text : String :=
  ⟨List.replicate 499 'a'⟩ ++ "," ++ ⟨List.replicate 499 'a'⟩ ++ ",a," ++
    "\n\nb"

/-- The ordering contract asserted by the claim, following the spec's words:
each chunk's `chunk_index` is its predecessor's plus one, and each chunk's
`char_range` starts no earlier than its predecessor's end. -/
def orderingContract : List TextChunk → Bool
  | a :: b :: rest =>
    (b.chunk_index = a.chunk_index + 1 && a.char_range.2 ≤ b.char_range.1) &&
      orderingContract (b :: rest)
  | _ => true

/-- C2: contrary to the claim, on `c2Text` the emitted chunk indices are
`0, 1, 2, 6` — `chunk_index` is double-incremented after `hard_split` (once
inside it through the `&mut` counter and once more by
`*chunk_index += hard_chunks.len()`) — and the fourth chunk's `char_range`
starts at 1003, before the third chunk's end 1004, because `chunk` advances
`global_offset` by `para_len + 1` while `hard_split` inflates offsets by one
extra byte per chunk; so the claimed ordering contract evaluates to false. -/
theorem C2_theorem :
    ((rcC2.chunk [(1, c2Text)]).map
      (List.map fun c => (c.chunk_index, c.char_range)))
      = some [(0, (0, 500)), (1, (501, 1001)), (2, (1002, 1004)),
              (6, (1003, 1004))] ∧
    (rcC2.chunk [(1, c2Text)]).map orderingContract = some false := by decide

/-! ## The chunk-record invariant of the recursive chunker

Every chunk record emitted by `RecursiveChunker::chunk` is built by
`make_chunk`, so its `token_count` metadata entry is the chunker's tokenizer
applied to its content; and its content either fits the token budget (the
paragraph and sentence paths check it) or is a hard-split slice of at most
500 characters (the character path does not check tokens). -/

/-- The invariant of every emitted chunk record. -/
def ChunkProp (rc : RecursiveChunker) (c : TextChunk) : Prop :=
  c.token_count = rc.tc c.content ∧ c.model = rc.model ∧
  (rc.tc c.content ≤ rc.max_tokens ∨ c.content.length ≤ 500)

theorem chunkProp_makeChunk (rc : RecursiveChunker) (content : String)
    (page off idx : Nat)
    (h : rc.tc content ≤ rc.max_tokens ∨ content.length ≤ 500) :
    ChunkProp rc (rc.makeChunk content page off idx) :=
  ⟨rfl, rfl, h⟩

/-- The cut position of one `hard_split` iteration lies at most 500 characters
past `i`. -/
theorem hardSplit_cut_bound (chars : List Char) (i : Nat) :
    (if RecursiveChunker.walkBack chars i (min (i + 500) chars.length) = i
     then i + 300
     else RecursiveChunker.walkBack chars i (min (i + 500) chars.length)) - i
      ≤ 500 := by
  have h1 := RecursiveChunker.walkBack_le chars i (min (i + 500) chars.length)
  split <;> omega

/-- Every chunk produced by the `hard_split` loop satisfies the invariant:
its content is a slice of at most 500 characters. -/
theorem hardSplitAux_prop (rc : RecursiveChunker) (page : Nat)
    (chars : List Char) :
    ∀ fuel i offset cidx out,
      RecursiveChunker.hardSplitAux rc page chars fuel i offset cidx = some out →
      ∀ c ∈ out.1, ChunkProp rc c := by
  intro fuel
  induction fuel with
  | zero =>
    intro i offset cidx out h
    simp [RecursiveChunker.hardSplitAux] at h
  | succ fuel ih =>
    intro i offset cidx out h
    rw [RecursiveChunker.hardSplitAux] at h
    by_cases hi : i < chars.length
    · rw [if_pos hi] at h
      simp only at h
      by_cases hov :
          (if RecursiveChunker.walkBack chars i (min (i + 500) chars.length) = i
           then i + 300
           else RecursiveChunker.walkBack chars i (min (i + 500) chars.length))
            > chars.length
      · rw [if_pos hov] at h
        exact absurd h (by simp)
      · rw [if_neg hov] at h
        rcases hrec : RecursiveChunker.hardSplitAux rc page chars fuel
            (if RecursiveChunker.walkBack chars i (min (i + 500) chars.length)
                = i then i + 300
             else RecursiveChunker.walkBack chars i (min (i + 500) chars.length))
            (offset +
              (⟨(chars.drop i).take
                ((if RecursiveChunker.walkBack chars i
                      (min (i + 500) chars.length) = i then i + 300
                  else RecursiveChunker.walkBack chars i
                      (min (i + 500) chars.length)) - i)⟩ :
                String).utf8ByteSize + 1)
            (cidx + 1) with _ | ⟨restCs, cOut⟩
        · rw [hrec] at h
          exact absurd h (by simp)
        · rw [hrec] at h
          obtain ⟨rfl⟩ : (_, _) = out := Option.some.inj h
          intro c hc
          rcases List.mem_cons.mp hc with rfl | hmem
          · refine chunkProp_makeChunk rc _ page offset cidx (Or.inr ?_)
            have hlen := List.length_take_le
              ((if RecursiveChunker.walkBack chars i
                    (min (i + 500) chars.length) = i then i + 300
                else RecursiveChunker.walkBack chars i
                    (min (i + 500) chars.length)) - i)
              (chars.drop i)
            have hbound := hardSplit_cut_bound chars i
            simpa [String.length] using le_trans hlen hbound
          · exact ih _ _ _ _ hrec c hmem
    · rw [if_neg hi] at h
      obtain ⟨rfl⟩ : (_, _) = out := Option.some.inj h
      intro c hc
      exact absurd hc (by simp)

/-- Every chunk produced by the sentence loop of `recursive_split` satisfies
the invariant, provided the incoming buffer is empty or within budget (which
is invariant in the source: the buffer only ever holds a checked
concatenation). -/
theorem recursiveSplitAux_prop (rc : RecursiveChunker) (page : Nat) :
    ∀ sentences buffer off cidx out,
      (buffer = "" ∨ rc.tc buffer ≤ rc.max_tokens) →
      RecursiveChunker.recursiveSplitAux rc page sentences buffer off cidx
        = some out →
      ∀ c ∈ out.1, ChunkProp rc c := by
  intro sentences
  induction sentences with
  | nil =>
    intro buffer off cidx out hbuf h
    rw [RecursiveChunker.recursiveSplitAux] at h
    by_cases hb : buffer = ""
    · rw [if_neg (by simp [hb])] at h
      obtain ⟨rfl⟩ : (_, _) = out := Option.some.inj h
      intro c hc
      exact absurd hc (by simp)
    · rw [if_pos (by simp [hb])] at h
      obtain ⟨rfl⟩ : (_, _) = out := Option.some.inj h
      intro c hc
      rcases List.mem_singleton.mp hc with rfl
      exact chunkProp_makeChunk rc _ page off cidx
        (Or.inl (hbuf.resolve_left hb))
  | cons sentence rest ih =>
    intro buffer off cidx out hbuf h
    rw [RecursiveChunker.recursiveSplitAux] at h
    simp only at h
    by_cases hse : trimStr sentence = ""
    · rw [if_pos hse] at h
      exact ih _ _ _ _ hbuf h
    · rw [if_neg hse] at h
      by_cases hfit : rc.tokenCount
          (if buffer = "" then trimStr sentence
           else buffer ++ " " ++ trimStr sentence) ≤ rc.max_tokens
      · rw [if_pos hfit] at h
        exact ih _ _ _ _ (Or.inr hfit) h
      · rw [if_neg hfit] at h
        by_cases hsent : rc.tokenCount (trimStr sentence) ≤ rc.max_tokens
        · rw [if_pos hsent] at h
          rcases hrec : RecursiveChunker.recursiveSplitAux rc page rest ""
              ((if buffer ≠ "" then off + buffer.utf8ByteSize + 1 else off) +
                (trimStr sentence).utf8ByteSize + 1)
              ((if buffer ≠ "" then cidx + 1 else cidx) + 1) with _ | p
          · rw [hrec] at h
            exact absurd h (by simp)
          · rw [hrec] at h
            obtain ⟨rfl⟩ : (_, _) = out := Option.some.inj h
            intro c hc
            simp only [List.append_assoc, List.mem_append,
              List.mem_singleton] at hc
            rcases hc with hcom | rfl | hmem
            · by_cases hb : buffer = ""
              · simp [hb] at hcom
              · rw [if_pos hb] at hcom
                rcases List.mem_singleton.mp hcom with rfl
                exact chunkProp_makeChunk rc _ page off cidx
                  (Or.inl (hbuf.resolve_left hb))
            · exact chunkProp_makeChunk rc _ page _ _ (Or.inl hsent)
            · exact ih _ _ _ _ (Or.inl rfl) hrec c hmem
        · rw [if_neg hsent] at h
          rcases hhard : rc.hardSplit (trimStr sentence) page
              (if buffer ≠ "" then off + buffer.utf8ByteSize + 1 else off)
              (if buffer ≠ "" then cidx + 1 else cidx) with _ | ⟨hcs, cidxH⟩
          · rw [hhard] at h
            exact absurd h (by simp)
          · rw [hhard] at h
            simp only at h
            rcases hrec : RecursiveChunker.recursiveSplitAux rc page rest ""
                ((if buffer ≠ "" then off + buffer.utf8ByteSize + 1 else off) +
                  (hcs.map fun c => c.content.utf8ByteSize + 1).sum)
                (cidxH + hcs.length) with _ | ⟨cs1, c1⟩
            · rw [hrec] at h
              exact absurd h (by simp)
            · rw [hrec] at h
              obtain ⟨rfl⟩ : (_, _) = out := Option.some.inj h
              intro c hc
              simp only [List.append_assoc, List.mem_append] at hc
              rcases hc with hcom | hhc | hmem
              · by_cases hb : buffer = ""
                · simp [hb] at hcom
                · rw [if_pos hb] at hcom
                  rcases List.mem_singleton.mp hcom with rfl
                  exact chunkProp_makeChunk rc _ page off cidx
                    (Or.inl (hbuf.resolve_left hb))
              · exact hardSplitAux_prop rc page (trimStr sentence).data _ _ _ _
                  (hcs, cidxH) hhard c hhc
              · exact ih _ _ _ _ (Or.inl rfl) hrec c hmem

/-- Every chunk produced by the paragraph loop of `chunk` satisfies the
invariant. -/
theorem chunkParas_prop (rc : RecursiveChunker) (page : Nat) :
    ∀ paras off cidx out,
      RecursiveChunker.chunkParas rc page paras off cidx = some out →
      ∀ c ∈ out.1, ChunkProp rc c := by
  intro paras
  induction paras with
  | nil =>
    intro off cidx out h
    obtain ⟨rfl⟩ : (_, _, _) = out := Option.some.inj h
    intro c hc
    exact absurd hc (by simp)
  | cons para rest ih =>
    intro off cidx out h
    rw [RecursiveChunker.chunkParas] at h
    by_cases hfit : rc.tokenCount para ≤ rc.max_tokens
    · rw [if_pos hfit] at h
      rcases hrec : RecursiveChunker.chunkParas rc page rest
          (off + para.utf8ByteSize + 1) (cidx + 1) with _ | p
      · rw [hrec] at h
        exact absurd h (by simp)
      · rw [hrec] at h
        obtain ⟨rfl⟩ : (_, _, _) = out := Option.some.inj h
        intro c hc
        rcases List.mem_cons.mp hc with rfl | hmem
        · exact chunkProp_makeChunk rc _ page off cidx (Or.inl hfit)
        · exact ih _ _ _ hrec c hmem
    · rw [if_neg hfit] at h
      rcases hsub : rc.recursiveSplit para page off cidx with _ | ⟨subs, cidxS⟩
      · rw [hsub] at h
        exact absurd h (by simp)
      · rw [hsub] at h
        simp only at h
        rcases hrec : RecursiveChunker.chunkParas rc page rest
            (off + para.utf8ByteSize + 1) cidxS with _ | ⟨cs1, o1, i1⟩
        · rw [hrec] at h
          exact absurd h (by simp)
        · rw [hrec] at h
          obtain ⟨rfl⟩ : (_, _, _) = out := Option.some.inj h
          intro c hc
          rcases List.mem_append.mp hc with hmem | hmem
          · exact recursiveSplitAux_prop rc page _ _ _ _ (subs, cidxS)
              (Or.inl rfl) hsub c hmem
          · exact ih _ _ _ hrec c hmem

/-- Every chunk produced by the page loop of `chunk` satisfies the
invariant. -/
theorem chunkPages_prop (rc : RecursiveChunker) :
    ∀ pages off cidx out,
      RecursiveChunker.chunkPages rc pages off cidx = some out →
      ∀ c ∈ out.1, ChunkProp rc c := by
  intro pages
  induction pages with
  | nil =>
    intro off cidx out h
    obtain ⟨rfl⟩ : (_, _, _) = out := Option.some.inj h
    intro c hc
    exact absurd hc (by simp)
  | cons pg rest ih =>
    intro off cidx out h
    rw [RecursiveChunker.chunkPages] at h
    rcases hpar : RecursiveChunker.chunkParas rc pg.1
        (RecursiveChunker.splitParagraphs pg.2) off cidx
      with _ | ⟨cs1, o1, i1⟩
    · rw [hpar] at h
      exact absurd h (by simp)
    · rw [hpar] at h
      simp only at h
      rcases hrec : RecursiveChunker.chunkPages rc rest o1 i1
        with _ | ⟨cs2, o2, i2⟩
      · rw [hrec] at h
        exact absurd h (by simp)
      · rw [hrec] at h
        obtain ⟨rfl⟩ : (_, _, _) = out := Option.some.inj h
        intro c hc
        rcases List.mem_append.mp hc with hmem | hmem
        · exact chunkParas_prop rc pg.1 _ _ _ _ hpar c hmem
        · exact ih _ _ _ hrec c hmem

/-- Every chunk emitted by `RecursiveChunker::chunk` satisfies the
invariant. -/
theorem chunk_prop (rc : RecursiveChunker) (pages : List (Nat × String))
    (cs : List TextChunk) (h : rc.chunk pages = some cs) :
    ∀ c ∈ cs, ChunkProp rc c := by
  unfold RecursiveChunker.chunk at h
  rcases hp : RecursiveChunker.chunkPages rc pages 0 0 with _ | out
  · rw [hp] at h
    exact absurd h (by simp)
  · rw [hp] at h
    obtain rfl : out.1 = cs := Option.some.inj h
    exact chunkPages_prop rc pages 0 0 out hp

/-! ## Claims: the token budget (C5), counterexample -/

/-- A chunker with a 100-token budget over the character-count tokenizer. -/
def rc100 : RecursiveChunker :=
  { max_tokens := 100, model := "m", tc := String.length }

/-- A chunker with a 2-token budget over the character-count tokenizer. -/
def rcC5 : RecursiveChunker :=
  { max_tokens := 2, model := "m", tc := String.length }

/-- A paragraph that is one sentence over budget ending in a comma (a
`hard_split` good break): the hard-split path emits it whole, unchecked. -/
def c5Text : String := "aaa,"

/-- C5, counterexample: contrary to the claim, chunks produced through
`hard_split` can exceed the `max_tokens` budget — on `c5Text` the emitted
chunk counts 4 tokens against a budget of 2. -/
theorem C5_counterexample :
    ((rcC5.chunk [(1, c5Text)]).map
      (List.map fun c => (c.token_count,
        decide (c.token_count ≤ rcC5.max_tokens))))
      = some [(4, false)] := by decide

/-- C5, amended: every chunk record emitted by `RecursiveChunker::chunk`
either has a token count within the configured `max_tokens` budget (the
paragraph and sentence paths check the budget before emitting) or is a
hard-split slice of at most 500 characters (the character-level hard-split
path emits without a token check, so only the length bound holds there). -/
theorem C5_theorem (rc : RecursiveChunker) (pages : List (Nat × String))
    (cs : List TextChunk) (h : rc.chunk pages = some cs) (c : TextChunk)
    (hc : c ∈ cs) :
    rc.tc c.content ≤ rc.max_tokens ∨ c.content.length ≤ 500 :=
  (chunk_prop rc pages cs h c hc).2.2

/-- C5, witness: the amended statement on the one-chunk input `"hi"`. -/
theorem C5_witness :
    rc100.chunk [(1, "hi")] = some [rc100.makeChunk "hi" 1 0 0] ∧
    (rc100.tc (rc100.makeChunk "hi" 1 0 0).content ≤ rc100.max_tokens ∨
      (rc100.makeChunk "hi" 1 0 0).content.length ≤ 500) :=
  ⟨by decide,
   C5_theorem rc100 [(1, "hi")] _ (by decide) _ (List.mem_singleton.mpr rfl)⟩

/-! ## Claims: token-count reproducibility (C6) and FAQ overlap (C9),
counterexamples -/

/-- A (modelled) tokenizer that merges across unit boundaries:
`ceil(length / 2)`.  A BPE encoder is likewise not additive under
concatenation. -/
def tcHalf : String → Nat := fun s => (s.length + 1) / 2

/-- A (modelled) `jieba` segmentation that cuts the text into one-character
words. -/
def cutChars : String → List String := fun s => s.data.map (String.mk [·])

/-- A (modelled) `jieba` segmentation that keeps the text as a single word. -/
def cutSingleton : String → List String := fun s => [s]

/-- The FAQ chunker configuration of the C6 counterexample. -/
def fc6 : FAQChunker := { max_tokens := 8, overlap := 0, model := "m" }

/-- The FAQ entry of the C6 counterexample; its `raw_content` is
`"Q: ab\nA: b.cc.d.e"`, which counts 9 > 8 tokens under `tcHalf`. -/
def entry6 : FAQEntry := { category := "c", q := "ab", a := "b.cc.d.e", tags := [] }

/-- C6, counterexample: contrary to the claim, an FAQ chunk produced by
`split_long_qa` stores the accumulated sum of per-unit token counts, not a
recount of its joined content: the first chunk of `entry6` stores
`token_count = 8` (6 for `"Q: ab\nA: b."` plus 2 for `"cc."`) while
re-invoking the tokenizer on its content `"Q: ab\nA: b.cc."` returns 7. -/
theorem C6_counterexample :
    ((fc6.chunkByQA tcHalf cutChars [entry6]).map
      fun c => (c.content, c.token_count, tcHalf c.content))
      = [("Q: ab\nA: b.cc.", 8, 7), ("d.e", 2, 2)] ∧
    ((fc6.chunkByQA tcHalf cutChars [entry6]).map
      fun c => decide (c.token_count = tcHalf c.content)) = [false, true] := by
  decide

theorem join_singleton (s : String) : String.join [s] = s := rfl

/-- An FAQ entry whose Q+A fits the budget is emitted as a single chunk whose
stored `token_count` is the tokenizer applied to its content; by induction
over the entry loop of `chunk_by_qa`. -/
theorem chunkByQAAux_reproducible (fc : FAQChunker) (tc : String → Nat)
    (cut : String → List String) :
    ∀ entries idx,
      (∀ e ∈ entries, tc (FAQChunker.rawContent e) ≤ fc.max_tokens) →
      ∀ c ∈ FAQChunker.chunkByQAAux fc tc cut entries idx,
        c.token_count = tc c.content := by
  intro entries
  induction entries with
  | nil =>
    intro idx hall c hc
    exact absurd hc (by simp [FAQChunker.chunkByQAAux])
  | cons e rest ih =>
    intro idx hall c hc
    rw [FAQChunker.chunkByQAAux] at hc
    rw [if_neg (by simpa using hall e (by simp))] at hc
    rcases List.mem_append.mp hc with hmem | hmem
    · rcases List.mem_singleton.mp hmem with rfl
      simp [FAQChunker.mkFAQChunk, join_singleton]
    · exact ih _ (fun e' he' => hall e' (by simp [he'])) c hmem

/-- C6, amended: a chunk's stored `token_count` is reproducible from its
content for the Recursive Token Chunker (every chunk is built by `make_chunk`,
which invokes the chunker's own tokenizer on the content) and for FAQ entries
that fit the budget (the unsplit path stores `count_tokens(raw_content)`);
chunks produced by `split_long_qa`, however, store the accumulated sum of
per-unit token counts, which need not equal a re-tokenization of the joined
content. -/
theorem C6_theorem :
    (∀ (rc : RecursiveChunker) (pages : List (Nat × String))
        (cs : List TextChunk) (c : TextChunk),
        rc.chunk pages = some cs → c ∈ cs →
        c.token_count = rc.tc c.content) ∧
    (∀ (fc : FAQChunker) (tc : String → Nat) (cut : String → List String)
        (entries : List FAQEntry) (c : FAQChunk),
        (∀ e ∈ entries, tc (FAQChunker.rawContent e) ≤ fc.max_tokens) →
        c ∈ fc.chunkByQA tc cut entries →
        c.token_count = tc c.content) :=
  ⟨fun rc pages cs c h hc => (chunk_prop rc pages cs h c hc).1,
   fun fc tc cut entries c hall hc =>
     chunkByQAAux_reproducible fc tc cut entries 0 hall c hc⟩

/-- The budget-fitting FAQ entry of the C6 witness. -/
def entryW : FAQEntry := { category := "c", q := "a", a := "b", tags := [] }

/-- C6, witness: the amended statement at the chunker input `"hi"` and at the
budget-fitting entry `entryW`. -/
theorem C6_witness :
    (rc100.makeChunk "hi" 1 0 0).token_count =
      rc100.tc (rc100.makeChunk "hi" 1 0 0).content ∧
    (FAQChunker.mkFAQChunk (FAQChunker.faqIdOf entryW 0) entryW 1
        [FAQChunker.rawContent entryW]
        (tcHalf (FAQChunker.rawContent entryW))).token_count =
      tcHalf (FAQChunker.mkFAQChunk (FAQChunker.faqIdOf entryW 0) entryW 1
        [FAQChunker.rawContent entryW]
        (tcHalf (FAQChunker.rawContent entryW))).content :=
  ⟨C6_theorem.1 rc100 [(1, "hi")] [rc100.makeChunk "hi" 1 0 0] _ (by decide)
     (List.mem_singleton.mpr rfl),
   C6_theorem.2 fc6 tcHalf cutChars [entryW] _ (by decide) (by decide)⟩

/-- The FAQ chunker configuration of the C9 counterexample:
`overlap = 2 > 0`, budget 1. -/
def fc9 : FAQChunker := { max_tokens := 1, overlap := 2, model := "m" }

/-- The FAQ entry of the C9 counterexample; its `raw_content`
`"Q: a\nA: b.c"` counts 11 > 1 tokens under the character-count tokenizer. -/
def entry9 : FAQEntry := { category := "c", q := "a", a := "b.c", tags := [] }

/-- C9, counterexample: contrary to the claim, when an emitted chunk holds
fewer than `overlap` units the next chunk's leading `overlap` units are not
the previous chunk's trailing units: on `entry9` (over budget, `overlap = 2`)
the first chunk holds the single unit `"Q: a\nA: b"` while the second chunk's
leading two units are `["Q: a\nA: b", "c"]`. -/
theorem C9_counterexample :
    String.length (FAQChunker.rawContent entry9) > fc9.max_tokens ∧
    fc9.splitLongQAUnits String.length cutSingleton
        (FAQChunker.rawContent entry9)
      = [(["Q: a\nA: b"], 9), (["Q: a\nA: b", "c"], 10)] ∧
    ¬ (["Q: a\nA: b", "c"].take fc9.overlap
        = ["Q: a\nA: b"].drop (["Q: a\nA: b"].length - fc9.overlap)) := by
  decide

/-! ## The FAQ overlap invariant (C9, amended)

The unit loop of `split_long_qa` always holds a contiguous window
`units[b..idx)` in `current_units`: appending extends the window to the right,
and the overlap reset replaces it by `units[idx-overlap ..= idx]`.  Emitted
chunks are therefore windows, consecutive emitted windows starting exactly
`overlap` units before the previous window's end — which yields the claimed
unit-level overlap whenever the earlier chunk has at least `overlap` units. -/

/-- The chain of emitted unit windows: every element is the window
`units[b..e)` of its emission bound `e ≥ lo`, `e ≤ units.length`, and the next
element's window starts at `e - k`, with bound at least `e + 1`. -/
inductive WinChain (units : List String) (k : Nat) : Nat → Nat → List (List String) → Prop
  | nil : ∀ b lo, WinChain units k b lo []
  | cons : ∀ b lo e rest, b < e → lo ≤ e → e ≤ units.length →
      WinChain units k (e - k) (e + 1) rest →
      WinChain units k b lo (FAQChunker.window units b e :: rest)

theorem WinChain.mono (units : List String) (k : Nat) :
    ∀ b lo lo' out, lo' ≤ lo → WinChain units k b lo out →
      WinChain units k b lo' out := by
  intro b lo lo' out hle h
  cases h with
  | nil => exact .nil _ _
  | cons b lo e rest hbe hloe hel hrest =>
    exact .cons b lo' e rest hbe (le_trans hle hloe) hel hrest

theorem window_extend (units : List String) (b idx : Nat) (hb : b ≤ idx)
    (hidx : idx < units.length) :
    FAQChunker.window units b idx ++ [units.get ⟨idx, hidx⟩]
      = FAQChunker.window units b (idx + 1) := by
  unfold FAQChunker.window
  rw [show idx + 1 - b = (idx - b) + 1 by omega, List.take_succ]
  congr 1
  rw [List.getElem?_drop, show b + (idx - b) = idx by omega]
  simp [List.getElem?_eq_getElem hidx]

theorem window_map_trim (units : List String)
    (hu : ∀ u ∈ units, trimStr u = u) (b e : Nat) :
    (FAQChunker.window units b e).map trimStr = FAQChunker.window units b e := by
  rw [List.map_congr_left, List.map_id]
  intro u humem
  exact hu u (List.drop_subset b units (List.take_subset _ _ humem))

theorem window_length (units : List String) (b e : Nat) (he : e ≤ units.length) :
    (FAQChunker.window units b e).length = e - b := by
  unfold FAQChunker.window
  rw [List.length_take, List.length_drop]
  omega

/-- The unit loop preserves the window-chain shape: called with
`current = units[b..idx)` it emits a `WinChain` of windows. -/
theorem splitLongQAAux_winChain (fc : FAQChunker) (tc : String → Nat)
    (units : List String) (hk : 0 < fc.overlap)
    (hu : ∀ u ∈ units, trimStr u = u ∧ u ≠ "") :
    ∀ fuel idx b current curTok,
      b ≤ idx → idx ≤ units.length → units.length ≤ fuel + idx →
      current = FAQChunker.window units b idx →
      WinChain units fc.overlap b idx
        ((FAQChunker.splitLongQAAux fc tc units fuel idx current curTok).map
          Prod.fst) := by
  intro fuel
  induction fuel with
  | zero =>
    intro idx b current curTok hb hidx hfuel hcur
    rw [FAQChunker.splitLongQAAux]
    by_cases hne : current = []
    · rw [if_neg (by simp [hne])]
      exact .nil _ _
    · rw [if_pos (by simp [hne])]
      subst hcur
      have hlt : b < idx := by
        by_contra hcon
        exact hne (by simp [FAQChunker.window, show idx - b = 0 by omega])
      simpa using WinChain.cons b idx idx [] hlt (le_refl _) hidx (.nil _ _)
  | succ fuel ih =>
    intro idx b current curTok hb hidx hfuel hcur
    rw [FAQChunker.splitLongQAAux]
    by_cases hin : idx < units.length
    · rw [dif_pos hin]
      simp only
      have huidx := hu (units.get ⟨idx, hin⟩) (units.get_mem _ _)
      rw [if_neg (by rw [huidx.1]; exact huidx.2)]
      by_cases hemit :
          curTok + tc (trimStr (units.get ⟨idx, hin⟩)) > fc.max_tokens ∧
            current ≠ []
      · rw [if_pos hemit, if_pos hk]
        have hwin : (FAQChunker.window units (idx - fc.overlap) (idx + 1)).map
            trimStr = FAQChunker.window units (idx - fc.overlap) (idx + 1) :=
          window_map_trim units (fun u hm => (hu u hm).1) _ _
        rw [hwin]
        have hrest := ih (idx + 1) (idx - fc.overlap)
          (FAQChunker.window units (idx - fc.overlap) (idx + 1))
          (tc (String.join (FAQChunker.window units (idx - fc.overlap)
            (idx + 1))))
          (by omega) (by omega) (by omega) rfl
        subst hcur
        have hlt : b < idx := by
          by_contra hcon
          exact hemit.2 (by simp [FAQChunker.window, show idx - b = 0 by omega])
        simpa using WinChain.cons b idx idx _ hlt (le_refl _) (le_of_lt hin)
          hrest
      · rw [if_neg hemit]
        have hcur' : current ++ [trimStr (units.get ⟨idx, hin⟩)]
            = FAQChunker.window units b (idx + 1) := by
          rw [huidx.1, hcur]
          exact window_extend units b idx hb hin
        have hrec2 := ih (idx + 1) b
          (current ++ [trimStr (units.get ⟨idx, hin⟩)])
          (curTok + tc (trimStr (units.get ⟨idx, hin⟩)))
          (by omega) (by omega) (by omega) hcur'
        exact WinChain.mono units fc.overlap b (idx + 1) idx _ (by omega) hrec2
    · rw [dif_neg hin]
      by_cases hne : current = []
      · rw [if_neg (by simp [hne])]
        exact .nil _ _
      · rw [if_pos (by simp [hne])]
        subst hcur
        have hlt : b < idx := by
          by_contra hcon
          exact hne (by simp [FAQChunker.window, show idx - b = 0 by omega])
        simpa using WinChain.cons b idx idx [] hlt (le_refl _) hidx (.nil _ _)

/-- Two consecutive windows of a chain overlap by `k` units whenever the
earlier one holds at least `k` units. -/
theorem window_overlap (units : List String) (k b e e' : Nat)
    (hbe : b < e) (hee : e + 1 ≤ e') (hel : e ≤ units.length)
    (hk : k ≤ (FAQChunker.window units b e).length) :
    (FAQChunker.window units (e - k) e').take k
      = (FAQChunker.window units b e).drop
          ((FAQChunker.window units b e).length - k) := by
  have hlen := window_length units b e hel
  rw [hlen] at hk ⊢
  unfold FAQChunker.window
  rw [List.take_take, List.drop_take, List.drop_drop]
  rw [show min k (e' - (e - k)) = k by omega,
      show e - b - (e - b - k) = k by omega,
      show b + (e - b - k) = e - k by omega]

/-- Consecutive chunks of a window chain satisfy the claimed unit overlap. -/
theorem winChain_overlap (units : List String) (k : Nat) :
    ∀ b lo out, WinChain units k b lo out →
      ∀ i ci cj, out.get? i = some ci → out.get? (i + 1) = some cj →
        k ≤ ci.length → cj.take k = ci.drop (ci.length - k) := by
  intro b lo out h
  induction h with
  | nil => intro i ci cj hci; simp at hci
  | cons b lo e rest hbe hloe hel hrest ih =>
    intro i ci cj hci hcj hk
    cases i with
    | zero =>
      obtain rfl : FAQChunker.window units b e = ci := by simpa using hci
      cases hrest with
      | nil => simp at hcj
      | cons b' lo' e' rest' hbe' hloe' hel' hrest' =>
        obtain rfl : FAQChunker.window units (e - k) e' = cj := by
          simpa using hcj
        exact window_overlap units k b e e' hbe (by omega) hel hk
    | succ i =>
      exact ih i ci cj (by simpa using hci) (by simpa using hcj) hk

/-- C9, amended: for an FAQ entry split with `overlap = k > 0`, whenever an
emitted chunk holds at least `k` units, the next chunk's leading `k` units
equal its trailing `k` units (the unit lists are those accumulated in
`current_units`; all units produced by either unit splitter are trimmed and
nonempty, which is the `hu` hypothesis).  The restriction to chunks with at
least `k` units is forced by the counterexample: the reset slice
`units[idx-k ..= idx]` reaches back across chunk boundaries when the previous
chunk is shorter than `k` units. -/
theorem C9_theorem (fc : FAQChunker) (tc : String → Nat)
    (cut : String → List String) (text : String) (hk : 0 < fc.overlap)
    (hu : ∀ u ∈ FAQChunker.unitsOf cut text, trimStr u = u ∧ u ≠ "")
    (i : Nat) (ci cj : List String)
    (hci : ((fc.splitLongQAUnits tc cut text).map Prod.fst).get? i = some ci)
    (hcj : ((fc.splitLongQAUnits tc cut text).map Prod.fst).get? (i + 1)
      = some cj)
    (hlen : fc.overlap ≤ ci.length) :
    cj.take fc.overlap = ci.drop (ci.length - fc.overlap) := by
  have hchain := splitLongQAAux_winChain fc tc (FAQChunker.unitsOf cut text)
    hk hu (FAQChunker.unitsOf cut text).length 0 0 [] 0 (le_refl 0)
    (Nat.zero_le _) (by omega) (by simp [FAQChunker.window])
  exact winChain_overlap (FAQChunker.unitsOf cut text) fc.overlap 0 0 _
    hchain i ci cj hci hcj hlen

/-- The FAQ chunker configuration of the C9 witness: `overlap = 1`. -/
def fcW9 : FAQChunker := { max_tokens := 1, overlap := 1, model := "m" }

/-- C9, witness: the amended statement on `entry9` with `overlap = 1` — the
first chunk holds one unit, and the second chunk's leading unit equals it. -/
theorem C9_witness :
    (0 < fcW9.overlap) ∧
    (∀ u ∈ FAQChunker.unitsOf cutSingleton (FAQChunker.rawContent entry9),
      trimStr u = u ∧ u ≠ "") ∧
    ((fcW9.splitLongQAUnits String.length cutSingleton
        (FAQChunker.rawContent entry9)).map Prod.fst).get? 0
      = some ["Q: a\nA: b"] ∧
    ((fcW9.splitLongQAUnits String.length cutSingleton
        (FAQChunker.rawContent entry9)).map Prod.fst).get? 1
      = some ["Q: a\nA: b", "c"] ∧
    ["Q: a\nA: b", "c"].take fcW9.overlap
      = ["Q: a\nA: b"].drop (["Q: a\nA: b"].length - fcW9.overlap) :=
  ⟨by decide, by decide, by decide, by decide,
   C9_theorem fcW9 String.length cutSingleton (FAQChunker.rawContent entry9)
     (by decide) (by decide) 0 ["Q: a\nA: b"] ["Q: a\nA: b", "c"]
     (by decide) (by decide) (by decide)⟩

/-! ## Claims: `add_node` error atomicity (C10) -/

/-- C10: whenever `NodeTree::add_node` returns an error — the node has no
`Parent` relationship, or the parent id is not in the tree — the tree is left
completely unchanged: both validations precede every mutation. -/
theorem C10_theorem (t : NodeTree) (n : Node) (e : String)
    (h : (t.addNodeS n).2 = .error e) : (t.addNodeS n).1 = t := by
  unfold NodeTree.addNodeS at h ⊢
  cases hp : n.parentId with
  | none => simp [hp]
  | some pid =>
    cases hn : t.nodes pid with
    | none => simp [hp, hn]
    | some parent =>
      exfalso
      rcases hgl : (Node.pushChild n.id parent).children.reverse[1]? with _ | lc <;>
        simp [hp, hn, hgl] at h

/-- A one-node tree (a bare root) for the C10 witness. -/
def t10 : NodeTree := NodeTree.new (Node.newRoot 0 "d" none)

/-- A leaf whose claimed parent id 99 is absent from `t10`. -/
def n10 : Node := Node.newLeaf 5 99 "x" 1 0 ["Root"] "d" none none none none

/-- C10, witness: adding `n10` to `t10` fails with the missing-parent error
and leaves the tree unchanged. -/
theorem C10_witness :
    (t10.addNodeS n10).2 = .error "Parent node not found" ∧
    (t10.addNodeS n10).1 = t10 :=
  ⟨by rfl, C10_theorem t10 n10 "Parent node not found" (by rfl)⟩

end RagRs
